import Mathlib

/-!
Verification of the `elegant_heap_queue` priority queue
(`src/elegant_heap_queue/heap_queue.py`).

The queue stores internal entries `(orderingKey, element)` in a Python list
managed by the stdlib `heapq` functions.  We embed:

* the `heapq` algorithms themselves (`heappush` = append + `_siftdown`,
  `heappop` = move last entry to the root + `_siftup`), translated from
  CPython's `Lib/heapq.py`, which the repository calls;
* the queue layer (`__prepare_value`, `peek`, `push`, `pop`, `push_all`,
  `pop_k`, `as_sorted_list`, `__init__`) from `heap_queue.py`;
* a second track in which element comparison is partial (`Option Bool`,
  `none` = Python `TypeError`), used for the orderability-guard behaviour
  (`__is_sortable`) and for tie-breaking `TypeError`s.

Python `while` loops are written as structural recursion on an explicit
fuel argument; every call site passes fuel that provably dominates the
number of iterations (for `_siftdown` the position only decreases, so
`fuel = pos` suffices; for `_siftup` the position strictly increases below
`length`, so `fuel = length` suffices).  With sufficient fuel the
fuel-exhaustion branch coincides with the loop-exit branch, so the
functions compute exactly what the Python loops compute, and being
structural they evaluate by `rfl`/`decide`.
-/

set_option linter.unusedVariables false

/-- Heap polarity, from the `HeapType` enum in `heap_queue.py`. -/
inductive HeapType where
  | MAX_HEAP
  | MIN_HEAP
deriving DecidableEq

/-- Failure kinds of the queue operations.  The Python code raises
`IndexError("Heap is empty")` / `IndexError("pop() from empty HeapQueue")`
(spec: `EmptyQueueError`), `ValueError` from `pop_k` with `k <= 0`
(spec: `InvalidArgumentError`), `IndexError("Cannot pop k items ...")`
from `pop_k` with `k` above the size (spec: `InsufficientSizeError`),
`TypeError` from the `__is_sortable` guard (spec: `UnorderableTypeError`),
and `TypeError` raised by Python itself when two stored values are
compared but do not support comparison (`cmpTypeError`). -/
inductive Err where
  | emptyQueue
  | invalidArgument
  | insufficientSize
  | unorderable
  | cmpTypeError
deriving DecidableEq

/-- Index of the parent of heap slot `j` in the array layout used by
`heapq` (`parentpos = (pos - 1} >> 1` in Python, braces aside). -/
def parentIdx (j : Nat) : Nat := (j - 1) / 2

theorem parentIdx_lt {j : Nat} (h : 0 < j) : parentIdx j < j := by
  unfold parentIdx; omega

theorem parentIdx_le (j : Nat) : parentIdx j ≤ j := by
  unfold parentIdx; omega

theorem lt_of_parentIdx_eq {j p : Nat} (hp : 0 < p) (h : parentIdx j = p) : p < j := by
  unfold parentIdx at h; omega

theorem parentIdx_bounds {j p : Nat} (hj : 0 < j) (h : parentIdx j = p) :
    2 * p + 1 ≤ j ∧ j ≤ 2 * p + 2 := by
  unfold parentIdx at h; omega

theorem parentIdx_left_child (p : Nat) : parentIdx (2 * p + 1) = p := by
  unfold parentIdx; omega

theorem parentIdx_right_child (p : Nat) : parentIdx (2 * p + 2) = p := by
  unfold parentIdx; omega

/-- Convenience: an in-range index yields a `some` lookup. -/
theorem getElem?_some_of_lt {α : Type} {l : List α} {i : Nat} (h : i < l.length) :
    ∃ v, l[i]? = some v :=
  ⟨l[i], List.getElem?_eq_getElem h⟩

theorem getD_of_getElem? {α : Type} {l : List α} {i : Nat} {d v : α}
    (h : l[i]? = some v) : l.getD i d = v := by
  rw [List.getD_eq_getElem?_getD, h]; rfl

theorem mem_of_getElem?_some {α : Type} {l : List α} {i : Nat} {v : α}
    (h : l[i]? = some v) : v ∈ l :=
  List.mem_iff_getElem?.mpr ⟨i, h⟩

section GenericHeap

variable {α : Type}

/-- CPython `heapq._siftdown(heap, startpos, pos)` with `newitem = heap[pos]`
passed explicitly (the Python code reads it before looping and only writes
it back at the end).  Each iteration moves the hole at `pos` up to its
parent while `newitem` is strictly below the parent; `fuel ≥ pos` makes the
fuel bound unreachable since `pos` strictly decreases. -/
def siftdownLoop (lt : α → α → Bool) (newitem : α) :
    Nat → List α → Nat → Nat → List α
  | fuel + 1, heap, startpos, pos =>
    if startpos < pos then
      let parentpos := parentIdx pos
      let parent := heap.getD parentpos newitem
      if lt newitem parent then
        siftdownLoop lt newitem fuel (heap.set pos parent) startpos parentpos
      else
        heap.set pos newitem
    else
      heap.set pos newitem
  | 0, heap, _startpos, pos => heap.set pos newitem

/-- CPython `heapq.heappush`: append the item, then sift it toward the root. -/
def heappush (lt : α → α → Bool) (heap : List α) (item : α) : List α :=
  siftdownLoop lt item heap.length (heap ++ [item]) 0 heap.length

/-- CPython `heapq._siftup(heap, pos)` with `newitem = heap[pos]` passed
explicitly: bubble the hole down to a leaf, always following the smaller
child, then bubble `newitem` back up with `_siftdown`.  The position
strictly increases and stays below the length, so `fuel = heap.length`
dominates the iteration count and the fuel-exhaustion branch (which equals
the loop-exit branch) is unreachable. -/
def siftupLoop (lt : α → α → Bool) (newitem : α) :
    Nat → List α → Nat → Nat → List α
  | fuel + 1, heap, startpos, pos =>
    if 2 * pos + 1 < heap.length then
      let childpos := 2 * pos + 1
      let cp :=
        if decide (childpos + 1 < heap.length) &&
            ! lt (heap.getD childpos newitem) (heap.getD (childpos + 1) newitem) then
          childpos + 1
        else childpos
      siftupLoop lt newitem fuel (heap.set pos (heap.getD cp newitem)) startpos cp
    else
      siftdownLoop lt newitem pos heap startpos pos
  | 0, heap, startpos, pos => siftdownLoop lt newitem pos heap startpos pos

/-- CPython `heapq.heappop`: pop the last entry; if the heap is still
non-empty, remember the root, overwrite it with the last entry and sift it
down.  Returns `none` on the empty list (Python raises `IndexError`, which
every caller in `heap_queue.py` guards against or converts). -/
def heappop (lt : α → α → Bool) (heap : List α) : Option (α × List α) :=
  match heap.getLast? with
  | none => none
  | some lastelt =>
    match heap.dropLast with
    | [] => some (lastelt, [])
    | r0 :: rtail =>
      some (r0, siftupLoop lt lastelt (r0 :: rtail).length ((r0 :: rtail).set 0 lastelt) 0 0)

/-- Iterated `heappop`: the popped items in order, and the remaining heap.
Models the `for _ in range(k): result.append(heapq.heappop(...)[1])` loop
of `pop_k`. -/
def popN (lt : α → α → Bool) : Nat → List α → List α × List α
  | 0, heap => ([], heap)
  | n + 1, heap =>
    match heappop lt heap with
    | none => ([], heap)
    | some (x, h2) =>
      let r := popN lt n h2
      (x :: r.1, r.2)

theorem siftdownLoop_length (lt : α → α → Bool) (x : α) :
    ∀ (fuel : Nat) (l : List α) (sp pos : Nat),
      (siftdownLoop lt x fuel l sp pos).length = l.length := by
  intro fuel
  induction fuel with
  | zero => intro l sp pos; simp [siftdownLoop]
  | succ n ih =>
    intro l sp pos
    simp only [siftdownLoop]
    by_cases h : sp < pos
    · simp only [if_pos h]
      by_cases h2 : lt x (l.getD (parentIdx pos) x)
      · simp only [if_pos h2, ih, List.length_set]
      · simp only [if_neg h2, List.length_set]
    · simp only [if_neg h, List.length_set]

theorem siftupLoop_length (lt : α → α → Bool) (x : α) :
    ∀ (fuel : Nat) (l : List α) (sp pos : Nat),
      (siftupLoop lt x fuel l sp pos).length = l.length := by
  intro fuel
  induction fuel with
  | zero => intro l sp pos; simp [siftupLoop, siftdownLoop_length]
  | succ n ih =>
    intro l sp pos
    simp only [siftupLoop]
    by_cases h : 2 * pos + 1 < l.length
    · simp only [if_pos h, ih, List.length_set]
    · simp only [if_neg h, siftdownLoop_length]

theorem heappush_length (lt : α → α → Bool) (heap : List α) (item : α) :
    (heappush lt heap item).length = heap.length + 1 := by
  unfold heappush
  rw [siftdownLoop_length, List.length_append]
  rfl

/-- Moving the value at index `k` to the front and writing `x` in its place
is a permutation of writing `x` at the front. -/
theorem perm_getD_cons_set {d x : α} :
    ∀ (t : List α) (k : Nat), k < t.length →
      (t.getD k d :: t.set k x).Perm (x :: t) := by
  intro t
  induction t with
  | nil => intro k hk; simp at hk
  | cons w s ih =>
    intro k hk
    cases k with
    | zero =>
      simpa using List.Perm.swap x w s
    | succ m =>
      have hm : m < s.length := by simpa using hk
      have step1 : (s.getD m d :: w :: s.set m x).Perm (w :: s.getD m d :: s.set m x) :=
        List.Perm.swap w _ _
      have step2 : (w :: s.getD m d :: s.set m x).Perm (w :: x :: s) :=
        List.Perm.cons w (ih m hm)
      have step3 : (w :: x :: s).Perm (x :: w :: s) := List.Perm.swap x w s
      simpa using (step1.trans step2).trans step3

/-- Swapping which of two written values lands at the front is a
permutation. -/
theorem perm_cons_set_swap {c x : α} :
    ∀ (t : List α) (k : Nat), k < t.length →
      (x :: t.set k c).Perm (c :: t.set k x) := by
  intro t
  induction t with
  | nil => intro k hk; simp at hk
  | cons w s ih =>
    intro k hk
    cases k with
    | zero =>
      simpa using List.Perm.swap c x s
    | succ m =>
      have hm : m < s.length := by simpa using hk
      have step1 : (x :: w :: s.set m c).Perm (w :: x :: s.set m c) :=
        List.Perm.swap w x _
      have step2 : (w :: x :: s.set m c).Perm (w :: c :: s.set m x) :=
        List.Perm.cons w (ih m hm)
      have step3 : (w :: c :: s.set m x).Perm (c :: w :: s.set m x) :=
        List.Perm.swap c w _
      exact (step1.trans step2).trans step3

/-- Writing `l[j]` into slot `i` and then a fresh value into slot `j` is,
up to permutation, just writing the fresh value into slot `i`. -/
theorem set_set_perm {x d : α} :
    ∀ (l : List α) (i j : Nat), i < l.length → j < l.length → i ≠ j →
      ((l.set i (l.getD j d)).set j x).Perm (l.set i x) := by
  intro l
  induction l with
  | nil => intro i j hi hj hne; simp at hi
  | cons c t ih =>
    intro i j hi hj hne
    cases i with
    | zero =>
      cases j with
      | zero => exact absurd rfl hne
      | succ m =>
        have hm : m < t.length := by simpa using hj
        simpa [List.getD_cons_succ] using perm_getD_cons_set (d := d) (x := x) t m hm
    | succ n =>
      cases j with
      | zero =>
        have hn : n < t.length := by simpa using hi
        simpa [List.getD_cons_zero] using perm_cons_set_swap (c := c) (x := x) t n hn
      | succ m =>
        have hn : n < t.length := by simpa using hi
        have hm : m < t.length := by simpa using hj
        have hne' : n ≠ m := fun h => hne (by omega)
        simpa [List.getD_cons_succ] using
          List.Perm.cons c (ih n m hn hm hne')

theorem siftdownLoop_perm (lt : α → α → Bool) (x : α) :
    ∀ (fuel : Nat) (l : List α) (sp pos : Nat), pos < l.length →
      (siftdownLoop lt x fuel l sp pos).Perm (l.set pos x) := by
  intro fuel
  induction fuel with
  | zero => intro l sp pos hpos; simp [siftdownLoop]
  | succ n ih =>
    intro l sp pos hpos
    simp only [siftdownLoop]
    by_cases h : sp < pos
    · simp only [if_pos h]
      by_cases h2 : lt x (l.getD (parentIdx pos) x)
      · simp only [if_pos h2]
        have hpp : parentIdx pos < pos := parentIdx_lt (by omega)
        have hpplen : parentIdx pos < l.length := lt_trans hpp hpos
        have h1 := ih (l.set pos (l.getD (parentIdx pos) x)) sp (parentIdx pos)
          (by simpa using hpplen)
        exact h1.trans (set_set_perm l pos (parentIdx pos) hpos hpplen (by omega))
      · simp only [if_neg h2]; exact List.Perm.refl _
    · simp only [if_neg h]; exact List.Perm.refl _

theorem siftupLoop_perm (lt : α → α → Bool) (x : α) :
    ∀ (fuel : Nat) (l : List α) (sp pos : Nat), pos < l.length →
      (siftupLoop lt x fuel l sp pos).Perm (l.set pos x) := by
  intro fuel
  induction fuel with
  | zero => intro l sp pos hpos; exact siftdownLoop_perm lt x pos l sp pos hpos
  | succ n ih =>
    intro l sp pos hpos
    simp only [siftupLoop]
    by_cases h : 2 * pos + 1 < l.length
    · simp only [if_pos h]
      set cp := if decide (2 * pos + 1 + 1 < l.length) &&
          ! lt (l.getD (2 * pos + 1) x) (l.getD (2 * pos + 1 + 1) x) then
          2 * pos + 1 + 1
        else 2 * pos + 1 with hcp
      have hcplen : cp < l.length := by
        rw [hcp]
        by_cases hb : decide (2 * pos + 1 + 1 < l.length) &&
            ! lt (l.getD (2 * pos + 1) x) (l.getD (2 * pos + 1 + 1) x)
        · simp only [if_pos hb]
          have := hb
          simp only [Bool.and_eq_true, decide_eq_true_eq] at this
          exact this.1
        · simp only [if_neg hb]; exact h
      have hne : pos ≠ cp := by
        have : 2 * pos + 1 ≤ cp := by
          rw [hcp]; split <;> omega
        omega
      have h1 := ih (l.set pos (l.getD cp x)) sp cp (by simpa using hcplen)
      exact h1.trans (set_set_perm l pos cp hpos hcplen hne)
    · simp only [if_neg h]
      exact siftdownLoop_perm lt x pos l sp pos hpos

theorem heappush_perm (lt : α → α → Bool) (heap : List α) (item : α) :
    (heappush lt heap item).Perm (item :: heap) := by
  unfold heappush
  have hlen : heap.length < (heap ++ [item]).length := by simp
  have h1 := siftdownLoop_perm lt item heap.length (heap ++ [item]) 0 heap.length hlen
  have hset : (heap ++ [item]).set heap.length item = heap ++ [item] := by
    apply List.ext_getElem?
    intro i
    rw [List.getElem?_set]
    by_cases hi : heap.length = i
    · subst hi
      simp [List.getElem?_append, List.getElem?_eq_getElem]
    · simp [hi]
  rw [hset] at h1
  exact h1.trans (List.perm_append_singleton item heap)

theorem heappop_eq_none_iff (lt : α → α → Bool) (heap : List α) :
    heappop lt heap = none ↔ heap = [] := by
  constructor
  · intro h
    by_contra hne
    have h1 : heap.getLast? = some (heap.getLast hne) := List.getLast?_eq_getLast heap hne
    unfold heappop at h
    rw [h1] at h
    cases hd : heap.dropLast <;> rw [hd] at h <;> simp at h
  · intro h; subst h; rfl

/-- If `getLast?` succeeds, the list splits as `dropLast ++ [last]`. -/
theorem eq_dropLast_append {heap : List α} {lastelt : α}
    (hl : heap.getLast? = some lastelt) : heap = heap.dropLast ++ [lastelt] := by
  have hne : heap ≠ [] := by
    intro hnil; subst hnil; simp at hl
  have h1 : heap.getLast? = some (heap.getLast hne) := List.getLast?_eq_getLast heap hne
  rw [h1, Option.some_inj] at hl
  rw [← hl]
  exact (List.dropLast_append_getLast hne).symm

theorem heappop_perm (lt : α → α → Bool) {heap h2 : List α} {x : α}
    (h : heappop lt heap = some (x, h2)) : (x :: h2).Perm heap := by
  unfold heappop at h
  cases hl : heap.getLast? with
  | none => rw [hl] at h; exact absurd h (by simp)
  | some lastelt =>
    rw [hl] at h
    have hsplit := eq_dropLast_append hl
    cases hd : heap.dropLast with
    | nil =>
      rw [hd] at h hsplit
      simp only [Option.some_inj, Prod.mk.injEq] at h
      rw [hsplit, ← h.1, ← h.2]
      exact List.Perm.refl _
    | cons r0 rtail =>
      rw [hd] at h hsplit
      simp only [Option.some_inj, Prod.mk.injEq] at h
      have hperm := siftupLoop_perm lt lastelt (r0 :: rtail).length
        ((r0 :: rtail).set 0 lastelt) 0 0 (by simp)
      have hset : ((r0 :: rtail).set 0 lastelt).set 0 lastelt = lastelt :: rtail := by
        simp
      rw [hset] at hperm
      rw [← h.1, ← h.2, hsplit]
      have h3 : (rtail ++ [lastelt]).Perm (lastelt :: rtail) :=
        List.perm_append_singleton lastelt rtail
      have p1 : (r0 :: siftupLoop lt lastelt (r0 :: rtail).length
          ((r0 :: rtail).set 0 lastelt) 0 0).Perm (r0 :: (lastelt :: rtail)) :=
        List.Perm.cons r0 hperm
      have p2 : (r0 :: (lastelt :: rtail)).Perm (r0 :: (rtail ++ [lastelt])) :=
        List.Perm.cons r0 h3.symm
      exact p1.trans p2

theorem heappop_length (lt : α → α → Bool) {heap h2 : List α} {x : α}
    (h : heappop lt heap = some (x, h2)) : h2.length + 1 = heap.length := by
  have := (heappop_perm lt h).length_eq
  simpa using this

theorem getElem?_set_self_of_lt {l : List α} {i : Nat} {v : α}
    (h : i < l.length) : (l.set i v)[i]? = some v := by
  rw [List.getElem?_set]; simp [h]

theorem getElem?_set_ne {l : List α} {i j : Nat} {v : α}
    (h : i ≠ j) : (l.set i v)[j]? = l[j]? := by
  rw [List.getElem?_set]; simp [h]

end GenericHeap

section HeapOrder

variable {α : Type} [LinearOrder α]

/-- The boolean strict comparison that `heapq` performs (Python `<`). -/
def ltb (α : Type) [LinearOrder α] : α → α → Bool := fun a b => decide (a < b)

/-- The binary-heap invariant of `heapq`: every parent entry is `≤` both of
its children (spec §3 "heap invariant"). -/
def HeapInv (l : List α) : Prop :=
  ∀ j a b, 0 < j → l[parentIdx j]? = some a → l[j]? = some b → a ≤ b

theorem heapInv_nil : HeapInv ([] : List α) := by
  intro j a b hj ha hb; simp at hb

/-- In a heap, the root is a minimum of the whole list. -/
theorem root_le_of_heapInv {l : List α} (hinv : HeapInv l) {r : α}
    (hr : l[0]? = some r) : ∀ (j : Nat) (b : α), l[j]? = some b → r ≤ b := by
  intro j
  induction j using Nat.strong_induction_on with
  | _ j ih =>
    intro b hb
    cases Nat.eq_zero_or_pos j with
    | inl h0 =>
      subst h0
      rw [hr] at hb
      exact le_of_eq (Option.some_inj.mp hb)
    | inr hpos =>
      have hjlen : j < l.length := (List.getElem?_eq_some_iff.mp hb).1
      have hplen : parentIdx j < l.length := lt_trans (parentIdx_lt hpos) hjlen
      obtain ⟨a, ha⟩ := getElem?_some_of_lt hplen
      exact le_trans (ih (parentIdx j) (parentIdx_lt hpos) a ha) (hinv j a b hpos ha hb)

/-- Invariant preservation for the `_siftdown` loop (hole bubbling toward
the root, `startpos = 0` as at every call site in `heapq`).  The
hypotheses say that writing `newitem` into the hole would give an array
that is a heap everywhere except possibly at the pair (parent of hole,
hole), and that the hole's children are already above the hole's parent. -/
theorem siftdownLoop_heapInv {x : α} :
    ∀ (fuel : Nat) (l : List α) (pos : Nat),
      pos < l.length → pos ≤ fuel →
      (∀ j a b, 0 < j → j ≠ pos →
        (l.set pos x)[parentIdx j]? = some a → (l.set pos x)[j]? = some b → a ≤ b) →
      (0 < pos → ∀ j b g, parentIdx j = pos →
        (l.set pos x)[j]? = some b → (l.set pos x)[parentIdx pos]? = some g → g ≤ b) →
      HeapInv (siftdownLoop (ltb α) x fuel l 0 pos) := by
  intro fuel
  induction fuel with
  | zero =>
    intro l pos hpos hfuel hA hB
    have h0 : pos = 0 := by omega
    subst h0
    simp only [siftdownLoop]
    intro j a b hj hpa hpb
    exact hA j a b hj (by omega) hpa hpb
  | succ n ih =>
    intro l pos hpos hfuel hA hB
    simp only [siftdownLoop]
    by_cases hp : 0 < pos
    · simp only [if_pos hp]
      have hpp_lt : parentIdx pos < pos := parentIdx_lt hp
      have hpp_len : parentIdx pos < l.length := lt_trans hpp_lt hpos
      obtain ⟨parent, hparent⟩ := getElem?_some_of_lt hpp_len
      have hgetD : l.getD (parentIdx pos) x = parent := getD_of_getElem? hparent
      rw [hgetD]
      have hppne : parentIdx pos ≠ pos := by omega
      have hMpp : (l.set pos x)[parentIdx pos]? = some parent := by
        rw [getElem?_set_ne (by omega), hparent]
      by_cases hlt : ltb α x parent
      · simp only [if_pos hlt]
        have hxp : x < parent := by
          simpa only [ltb, decide_eq_true_eq] using hlt
        -- facts about the updated completion M' = (l.set pos parent).set pp x
        have FM'pp : ((l.set pos parent).set (parentIdx pos) x)[parentIdx pos]? = some x :=
          getElem?_set_self_of_lt (by rw [List.length_set]; exact hpp_len)
        have FM'pos : ((l.set pos parent).set (parentIdx pos) x)[pos]? = some parent := by
          rw [getElem?_set_ne hppne, getElem?_set_self_of_lt hpos]
        have FM'other : ∀ i, i ≠ pos → i ≠ parentIdx pos →
            ((l.set pos parent).set (parentIdx pos) x)[i]? = l[i]? := by
          intro i h1 h2
          rw [getElem?_set_ne (fun h => h2 h.symm), getElem?_set_ne (fun h => h1 h.symm)]
        apply ih (l.set pos parent) (parentIdx pos)
        · rw [List.length_set]; exact hpp_len
        · omega
        · -- hA for the recursive call
          intro j a b hj hjpp hpa hpb
          by_cases hjpos : j = pos
          · subst hjpos
            rw [FM'pp] at hpa
            rw [FM'pos] at hpb
            rw [← Option.some_inj.mp hpa, ← Option.some_inj.mp hpb]
            exact le_of_lt hxp
          · have hlb : l[j]? = some b := by rw [← FM'other j hjpos hjpp]; exact hpb
            have hMb : (l.set pos x)[j]? = some b := by
              rw [getElem?_set_ne (fun h => hjpos h.symm)]; exact hlb
            by_cases hpj : parentIdx j = pos
            · rw [hpj, FM'pos] at hpa
              rw [← Option.some_inj.mp hpa]
              exact hB hp j b parent hpj hMb hMpp
            · by_cases hpjpp : parentIdx j = parentIdx pos
              · rw [hpjpp, FM'pp] at hpa
                rw [← Option.some_inj.mp hpa]
                have hMpj : (l.set pos x)[parentIdx j]? = some parent := by
                  rw [getElem?_set_ne (fun h => hpj h.symm), hpjpp, hparent]
                exact le_trans (le_of_lt hxp) (hA j parent b hj hjpos hMpj hMb)
              · have hpa' : (l.set pos x)[parentIdx j]? = some a := by
                  rw [getElem?_set_ne (fun h => hpj h.symm)]
                  rw [← FM'other (parentIdx j) hpj hpjpp]
                  exact hpa
                exact hA j a b hj hjpos hpa' hMb
        · -- hB for the recursive call
          intro hpp0 j b g hpj hpb hpg
          have hgp_lt : parentIdx (parentIdx pos) < parentIdx pos := parentIdx_lt hpp0
          have hgp_ne_pos : parentIdx (parentIdx pos) ≠ pos := by omega
          have hgp_ne_pp : parentIdx (parentIdx pos) ≠ parentIdx pos := by omega
          have hpg' : l[parentIdx (parentIdx pos)]? = some g := by
            rw [← FM'other _ hgp_ne_pos hgp_ne_pp]; exact hpg
          have hMg : (l.set pos x)[parentIdx (parentIdx pos)]? = some g := by
            rw [getElem?_set_ne (fun h => hgp_ne_pos h.symm)]; exact hpg'
          have hMppval : (l.set pos x)[parentIdx pos]? = some parent := hMpp
          have hg_le_parent : g ≤ parent :=
            hA (parentIdx pos) g parent hpp0 hppne
              (by rw [getElem?_set_ne (fun h => hgp_ne_pos h.symm)]; exact hpg') hMppval
          have hj_gt : parentIdx pos < j := lt_of_parentIdx_eq hpp0 hpj
          have hj0 : 0 < j := lt_trans hpp0 hj_gt
          by_cases hjpos : j = pos
          · subst hjpos
            rw [FM'pos] at hpb
            rw [← Option.some_inj.mp hpb]
            exact hg_le_parent
          · have hjpp : j ≠ parentIdx pos := by omega
            have hlb : l[j]? = some b := by rw [← FM'other j hjpos hjpp]; exact hpb
            have hMb : (l.set pos x)[j]? = some b := by
              rw [getElem?_set_ne (fun h => hjpos h.symm)]; exact hlb
            have hMpj : (l.set pos x)[parentIdx j]? = some parent := by
              rw [getElem?_set_ne (fun h => (by omega : parentIdx j ≠ pos) h.symm), hpj, hparent]
            exact le_trans hg_le_parent (hA j parent b hj0 hjpos hMpj hMb)
      · simp only [if_neg hlt]
        have hpx : parent ≤ x := by
          have := hlt
          simp only [ltb, decide_eq_true_eq] at this
          exact le_of_not_lt this
        intro j a b hj hpa hpb
        by_cases hjpos : j = pos
        · rw [hjpos] at hpa hpb
          rw [hMpp] at hpa
          have hb : (l.set pos x)[pos]? = some x := getElem?_set_self_of_lt hpos
          rw [hb] at hpb
          rw [← Option.some_inj.mp hpa, ← Option.some_inj.mp hpb]
          exact hpx
        · exact hA j a b hj hjpos hpa hpb
    · simp only [if_neg hp]
      have h0 : pos = 0 := by omega
      subst h0
      intro j a b hj hpa hpb
      exact hA j a b hj (by omega) hpa hpb

/-- Invariant preservation for the `_siftup` loop (hole bubbling down to a
leaf along the smaller child, then `_siftdown` back up).  Hypotheses: the
array is a heap on all pairs not involving the hole, and the hole's
children are above the hole's parent. -/
theorem siftupLoop_heapInv {x : α} :
    ∀ (fuel : Nat) (l : List α) (pos : Nat),
      pos < l.length → l.length ≤ fuel + pos →
      (∀ j a b, 0 < j → j ≠ pos → parentIdx j ≠ pos →
        l[parentIdx j]? = some a → l[j]? = some b → a ≤ b) →
      (0 < pos → ∀ j b g, parentIdx j = pos →
        l[j]? = some b → l[parentIdx pos]? = some g → g ≤ b) →
      HeapInv (siftupLoop (ltb α) x fuel l 0 pos) := by
  intro fuel
  induction fuel with
  | zero =>
    intro l pos hpos hfuel hA hC
    omega
  | succ n ih =>
    intro l pos hpos hfuel hA hC
    simp only [siftupLoop]
    by_cases h : 2 * pos + 1 < l.length
    · simp only [if_pos h]
      obtain ⟨lc, hlc⟩ := getElem?_some_of_lt h
      have hlcD : l.getD (2 * pos + 1) x = lc := getD_of_getElem? hlc
      by_cases hc : decide (2 * pos + 1 + 1 < l.length) &&
          ! ltb α (l.getD (2 * pos + 1) x) (l.getD (2 * pos + 1 + 1) x)
      · -- right child chosen: cp = 2*pos+2 and its value is ≤ the left child
        simp only [if_pos hc]
        have hc' := hc
        simp only [Bool.and_eq_true, decide_eq_true_eq, Bool.not_eq_true'] at hc'
        have hrlen : 2 * pos + 1 + 1 < l.length := hc'.1
        obtain ⟨rc, hrc⟩ := getElem?_some_of_lt hrlen
        have hrcD : l.getD (2 * pos + 1 + 1) x = rc := getD_of_getElem? hrc
        have hrc_le : rc ≤ lc := by
          have h2 := hc'.2
          rw [hlcD, hrcD] at h2
          simp only [ltb, decide_eq_false_iff_not] at h2
          exact le_of_not_lt h2
        rw [hrcD]
        apply ih (l.set pos rc) (2 * pos + 1 + 1)
        · rw [List.length_set]; exact hrlen
        · rw [List.length_set]; omega
        · -- heap on all pairs away from the new hole
          intro j a b hj hjcp hpjcp hpa hpb
          by_cases hjpos : j = pos
          · rw [hjpos] at hpa hpb
            have hppne : parentIdx pos ≠ pos := by
              have := parentIdx_lt (j := pos); omega
            have hb' : b = rc := by
              rw [getElem?_set_self_of_lt hpos] at hpb
              exact (Option.some_inj.mp hpb).symm
            have hpos0 : 0 < pos := by omega
            have hpa' : l[parentIdx pos]? = some a := by
              rw [getElem?_set_ne (fun hh => hppne hh.symm)] at hpa
              exact hpa
            rw [hb']
            exact hC hpos0 (2 * pos + 1 + 1) rc a (parentIdx_right_child pos) hrc hpa'
          · have hb' : l[j]? = some b := by
              rw [getElem?_set_ne (fun hh => hjpos hh.symm)] at hpb
              exact hpb
            by_cases hpj : parentIdx j = pos
            · -- sibling of the chosen child: its value dominates rc
              have ha' : a = rc := by
                rw [hpj, getElem?_set_self_of_lt hpos] at hpa
                exact (Option.some_inj.mp hpa).symm
              have hbounds := parentIdx_bounds hj hpj
              have hjleft : j = 2 * pos + 1 := by omega
              rw [hjleft, hlc] at hb'
              rw [ha', ← Option.some_inj.mp hb']
              exact hrc_le
            · have ha' : l[parentIdx j]? = some a := by
                rw [getElem?_set_ne (fun hh => hpj hh.symm)] at hpa
                exact hpa
              exact hA j a b hj hjpos hpj ha' hb'
        · -- grand-parent bound at the new hole
          intro hcp0 j b g hpj hpb hpg
          have hpcp : parentIdx (2 * pos + 1 + 1) = pos := parentIdx_right_child pos
          have hg' : g = rc := by
            rw [hpcp, getElem?_set_self_of_lt hpos] at hpg
            exact (Option.some_inj.mp hpg).symm
          have hj_gt : 2 * pos + 1 + 1 < j := lt_of_parentIdx_eq hcp0 hpj
          have hb' : l[j]? = some b := by
            rw [getElem?_set_ne (fun hh => (by omega : j ≠ pos) hh.symm)] at hpb
            exact hpb
          have hpjval : l[parentIdx j]? = some rc := by rw [hpj]; exact hrc
          rw [hg']
          exact hA j rc b (by omega) (by omega) (by omega) hpjval hb'
      · -- left child chosen: cp = 2*pos+1
        simp only [if_neg hc]
        rw [hlcD]
        have hsib : 2 * pos + 1 + 1 < l.length → lc < l.getD (2 * pos + 1 + 1) x := by
          intro hrlen
          by_contra hnot
          apply hc
          simp only [Bool.and_eq_true, decide_eq_true_eq, Bool.not_eq_true']
          refine ⟨hrlen, ?_⟩
          rw [hlcD]
          simp only [ltb, decide_eq_false_iff_not]
          exact fun hcontra => hnot hcontra
        apply ih (l.set pos lc) (2 * pos + 1)
        · rw [List.length_set]; exact h
        · rw [List.length_set]; omega
        · intro j a b hj hjcp hpjcp hpa hpb
          by_cases hjpos : j = pos
          · rw [hjpos] at hpa hpb
            have hppne : parentIdx pos ≠ pos := by
              have := parentIdx_lt (j := pos); omega
            have hb' : b = lc := by
              rw [getElem?_set_self_of_lt hpos] at hpb
              exact (Option.some_inj.mp hpb).symm
            have hpos0 : 0 < pos := by omega
            have hpa' : l[parentIdx pos]? = some a := by
              rw [getElem?_set_ne (fun hh => hppne hh.symm)] at hpa
              exact hpa
            rw [hb']
            exact hC hpos0 (2 * pos + 1) lc a (parentIdx_left_child pos) hlc hpa'
          · have hb' : l[j]? = some b := by
              rw [getElem?_set_ne (fun hh => hjpos hh.symm)] at hpb
              exact hpb
            by_cases hpj : parentIdx j = pos
            · have ha' : a = lc := by
                rw [hpj, getElem?_set_self_of_lt hpos] at hpa
                exact (Option.some_inj.mp hpa).symm
              have hbounds := parentIdx_bounds hj hpj
              have hjright : j = 2 * pos + 1 + 1 := by omega
              have hjlen : j < l.length := (List.getElem?_eq_some_iff.mp hb').1
              have hlt := hsib (by omega)
              obtain ⟨rc, hrc⟩ := getElem?_some_of_lt (hjright ▸ hjlen)
              rw [getD_of_getElem? hrc] at hlt
              have hb'' : b = rc := by
                rw [hjright, hrc] at hb'
                exact (Option.some_inj.mp hb').symm
              rw [ha', hb'']
              exact le_of_lt hlt
            · have ha' : l[parentIdx j]? = some a := by
                rw [getElem?_set_ne (fun hh => hpj hh.symm)] at hpa
                exact hpa
              exact hA j a b hj hjpos hpj ha' hb'
        · intro hcp0 j b g hpj hpb hpg
          have hpcp : parentIdx (2 * pos + 1) = pos := parentIdx_left_child pos
          have hg' : g = lc := by
            rw [hpcp, getElem?_set_self_of_lt hpos] at hpg
            exact (Option.some_inj.mp hpg).symm
          have hj_gt : 2 * pos + 1 < j := lt_of_parentIdx_eq hcp0 hpj
          have hb' : l[j]? = some b := by
            rw [getElem?_set_ne (fun hh => (by omega : j ≠ pos) hh.symm)] at hpb
            exact hpb
          have hpjval : l[parentIdx j]? = some lc := by rw [hpj]; exact hlc
          rw [hg']
          exact hA j lc b (by omega) (by omega) (by omega) hpjval hb'
    · -- loop exit: the hole is a leaf; bubble the new item back up
      simp only [if_neg h]
      apply siftdownLoop_heapInv pos l pos hpos (le_refl pos)
      · intro j a b hj hjpos hpa hpb
        by_cases hpj : parentIdx j = pos
        · have hbounds := parentIdx_bounds hj hpj
          have hjlen : j < l.length := by
            have := (List.getElem?_eq_some_iff.mp hpb).1
            rwa [List.length_set] at this
          omega
        · have ha' : l[parentIdx j]? = some a := by
            rw [getElem?_set_ne (fun hh => hpj hh.symm)] at hpa
            exact hpa
          have hb' : l[j]? = some b := by
            rw [getElem?_set_ne (fun hh => hjpos hh.symm)] at hpb
            exact hpb
          exact hA j a b hj hjpos hpj ha' hb'
      · intro hpos0 j b g hpj hpb hpg
        have hbounds := parentIdx_bounds (by
          have := lt_of_parentIdx_eq hpos0 hpj; omega) hpj
        have hjlen : j < l.length := by
          have := (List.getElem?_eq_some_iff.mp hpb).1
          rwa [List.length_set] at this
        omega

/-- Writing the appended item over itself is a no-op. -/
theorem set_append_last {α' : Type} (l : List α') (x : α') :
    (l ++ [x]).set l.length x = l ++ [x] := by
  apply List.ext_getElem?
  intro i
  rw [List.getElem?_set]
  by_cases hi : l.length = i
  · subst hi
    simp [List.getElem?_append, List.getElem?_eq_getElem]
  · simp [hi]

theorem getElem?_dropLast_eq {α' : Type} {l : List α'} {i : Nat} {v : α'}
    (h : l.dropLast[i]? = some v) : l[i]? = some v := by
  rw [List.getElem?_dropLast] at h
  by_cases hc : i < l.length - 1
  · rwa [if_pos hc] at h
  · rw [if_neg hc] at h; exact absurd h (by simp)

theorem heappush_heapInv {l : List α} {x : α} (hinv : HeapInv l) :
    HeapInv (heappush (ltb α) l x) := by
  unfold heappush
  apply siftdownLoop_heapInv l.length (l ++ [x]) l.length (by simp) (le_refl _)
  · intro j a b hj hjne hpa hpb
    rw [set_append_last] at hpa hpb
    have hjlen : j < (l ++ [x]).length := (List.getElem?_eq_some_iff.mp hpb).1
    have hjlen' : j < l.length := by
      simp only [List.length_append, List.length_cons, List.length_nil] at hjlen
      omega
    have hplen' : parentIdx j < l.length := lt_trans (parentIdx_lt hj) hjlen'
    have hpa' : l[parentIdx j]? = some a := by
      rw [List.getElem?_append] at hpa
      rwa [if_pos hplen'] at hpa
    have hpb' : l[j]? = some b := by
      rw [List.getElem?_append] at hpb
      rwa [if_pos hjlen'] at hpb
    exact hinv j a b hj hpa' hpb'
  · intro h0 j b g hpj hpb hpg
    rw [set_append_last] at hpb
    have hjlen : j < (l ++ [x]).length := (List.getElem?_eq_some_iff.mp hpb).1
    have hj_gt : l.length < j := lt_of_parentIdx_eq h0 hpj
    simp only [List.length_append, List.length_cons, List.length_nil] at hjlen
    omega

theorem heappop_spec {heap : List α} (hinv : HeapInv heap) {x : α} {h2 : List α}
    (h : heappop (ltb α) heap = some (x, h2)) :
    (x :: h2).Perm heap ∧ HeapInv h2 ∧ ∀ b ∈ heap, x ≤ b := by
  have hroot : heap[0]? = some x := by
    unfold heappop at h
    cases hl : heap.getLast? with
    | none => rw [hl] at h; exact absurd h (by simp)
    | some lastelt =>
      rw [hl] at h
      have hsplit := eq_dropLast_append hl
      cases hd : heap.dropLast with
      | nil =>
        rw [hd] at h hsplit
        simp only [Option.some_inj, Prod.mk.injEq] at h
        rw [hsplit, ← h.1]; simp
      | cons r0 rtail =>
        rw [hd] at h hsplit
        simp only [Option.some_inj, Prod.mk.injEq] at h
        rw [hsplit, ← h.1]; simp
  have hmin : ∀ b ∈ heap, x ≤ b := by
    intro b hb
    obtain ⟨n, hn⟩ := List.mem_iff_getElem?.mp hb
    exact root_le_of_heapInv hinv hroot n b hn
  refine ⟨heappop_perm _ h, ?_, hmin⟩
  unfold heappop at h
  cases hl : heap.getLast? with
  | none => rw [hl] at h; exact absurd h (by simp)
  | some lastelt =>
    rw [hl] at h
    cases hd : heap.dropLast with
    | nil =>
      rw [hd] at h
      simp only [Option.some_inj, Prod.mk.injEq] at h
      rw [← h.2]; exact heapInv_nil
    | cons r0 rtail =>
      rw [hd] at h
      simp only [Option.some_inj, Prod.mk.injEq] at h
      rw [← h.2]
      apply siftupLoop_heapInv (r0 :: rtail).length ((r0 :: rtail).set 0 lastelt) 0
        (by simp) (by simp)
      · intro j a b hj hj0 hpj0 hpa hpb
        have hpa' : heap[parentIdx j]? = some a := by
          rw [getElem?_set_ne (fun hh => hpj0 hh.symm), ← hd] at hpa
          exact getElem?_dropLast_eq hpa
        have hpb' : heap[j]? = some b := by
          rw [getElem?_set_ne (fun hh => hj0 hh.symm), ← hd] at hpb
          exact getElem?_dropLast_eq hpb
        exact hinv j a b hj hpa' hpb'
      · intro h00
        exact absurd h00 (lt_irrefl 0)

theorem popN_spec : ∀ (n : Nat) (l : List α), HeapInv l → n ≤ l.length →
    (popN (ltb α) n l).1.length = n ∧
    ((popN (ltb α) n l).1 ++ (popN (ltb α) n l).2).Perm l ∧
    HeapInv (popN (ltb α) n l).2 ∧
    List.Sorted (fun a b : α => a ≤ b) (popN (ltb α) n l).1 ∧
    (∀ a ∈ (popN (ltb α) n l).1, ∀ b ∈ (popN (ltb α) n l).2, a ≤ b) := by
  intro n
  induction n with
  | zero =>
    intro l hinv hn
    refine ⟨rfl, by simp only [popN, List.nil_append]; exact List.Perm.refl l, hinv,
      List.sorted_nil, ?_⟩
    intro a ha
    simp [popN] at ha
  | succ n ih =>
    intro l hinv hn
    cases hpop : heappop (ltb α) l with
    | none =>
      have := (heappop_eq_none_iff (ltb α) l).mp hpop
      subst this
      simp at hn
    | some pr =>
      obtain ⟨x, h2⟩ := pr
      obtain ⟨hperm1, hinv2, hmin⟩ := heappop_spec hinv hpop
      have hlen2 : h2.length + 1 = l.length := heappop_length _ hpop
      have hn2 : n ≤ h2.length := by omega
      obtain ⟨hlen, hperm2, hinv3, hsorted2, hcross2⟩ := ih h2 hinv2 hn2
      have hmem_h2 : ∀ b ∈ h2, b ∈ l := by
        intro b hb
        exact hperm1.mem_iff.mp (List.mem_cons_of_mem x hb)
      simp only [popN, hpop]
      refine ⟨by simpa using hlen, ?_, hinv3, ?_, ?_⟩
      · have : (x :: ((popN (ltb α) n h2).1 ++ (popN (ltb α) n h2).2)).Perm (x :: h2) :=
          List.Perm.cons x hperm2
        exact this.trans hperm1
      · rw [List.sorted_cons]
        refine ⟨?_, hsorted2⟩
        intro b hb
        have hbh2 : b ∈ h2 := hperm2.mem_iff.mp (List.mem_append_left _ hb)
        exact hmin b (hmem_h2 b hbh2)
      · intro a ha b hb
        rcases List.mem_cons.mp ha with rfl | ha'
        · have hbh2 : b ∈ h2 := hperm2.mem_iff.mp (List.mem_append_right _ hb)
          exact hmin b (hmem_h2 b hbh2)
        · exact hcross2 a ha' b hb

end HeapOrder

/-- Internal heap entry: the tuple `(orderingKey, element)` built by
`HeapQueue.__prepare_value`.  `ComparableT` is instantiated at `Int`, the
ordered type every projection in the repository's docs and tests returns
(and the only one on which the `-key(val)` negation of `__prepare_value`
is meaningful). -/
structure Entry (β : Type) where
  key : Int
  elem : β
deriving DecidableEq

/-- Entries compare exactly like Python tuples: lexicographically, the
`Int` ordering key first and the element only on key ties. -/
instance {β : Type} [LinearOrder β] : LinearOrder (Entry β) :=
  LinearOrder.lift' (fun e : Entry β => toLex (e.key, e.elem))
    (fun a b h => by
      have h2 := toLex.injective h
      cases a; cases b
      simp only [Prod.mk.injEq] at h2
      simp [h2.1, h2.2])

theorem Entry.lt_iff {β : Type} [LinearOrder β] {a b : Entry β} :
    a < b ↔ a.key < b.key ∨ (a.key = b.key ∧ a.elem < b.elem) :=
  Prod.Lex.lt_iff _ _

theorem Entry.le_iff {β : Type} [LinearOrder β] {a b : Entry β} :
    a ≤ b ↔ a.key < b.key ∨ (a.key = b.key ∧ a.elem ≤ b.elem) :=
  Prod.Lex.le_iff _ _

/-- Executable form of the strict entry comparison: Python tuple `<` on
`(Int, element)` pairs. -/
def entryLtK {β : Type} [LinearOrder β] (a b : Entry β) : Bool :=
  decide (a.key < b.key) || (decide (a.key = b.key) && decide (a.elem < b.elem))

theorem entryLtK_fn_eq {β : Type} [LinearOrder β] :
    (entryLtK : Entry β → Entry β → Bool) = ltb (Entry β) := by
  funext a b
  simp only [entryLtK, ltb]
  rw [Bool.eq_iff_iff]
  simp only [Bool.or_eq_true, Bool.and_eq_true, decide_eq_true_eq]
  exact (Entry.lt_iff).symm

/-- The `HeapQueue` state for a queue constructed with a key function
(`self._key_function is not None`): the key function, the `heap_type` and
the internal entry list `self._heap`. -/
structure KQueue (β : Type) where
  key : β → Int
  heap_type : HeapType
  heap : List (Entry β)

/-- The polarity-adjusted ordering key: the projection for `MIN_HEAP`, its
negation for `MAX_HEAP`. -/
def adjKey {β : Type} (ht : HeapType) (key : β → Int) (v : β) : Int :=
  match ht with
  | .MIN_HEAP => key v
  | .MAX_HEAP => -(key v)

/-- `HeapQueue.__prepare_value` in the key-function case: pair the item
with `key(val)` for `MIN_HEAP` and with `-key(val)` for `MAX_HEAP`. -/
def prepare_value {β : Type} (ht : HeapType) (key : β → Int) (v : β) : Entry β :=
  match ht with
  | .MIN_HEAP => { key := key v, elem := v }
  | .MAX_HEAP => { key := -(key v), elem := v }

theorem prepare_value_eq {β : Type} (ht : HeapType) (key : β → Int) (v : β) :
    prepare_value ht key v = { key := adjKey ht key v, elem := v } := by
  cases ht <;> rfl

/-- `HeapQueue.push` for a keyed queue.  The `__is_sortable` guard is
skipped because `self._key_function is None` is false; the prepared entry
is pushed with `heapq.heappush`. -/
def push {β : Type} [LinearOrder β] (q : KQueue β) (item : β) : KQueue β :=
  { q with heap := heappush entryLtK q.heap (prepare_value q.heap_type q.key item) }

/-- `HeapQueue.__init__` with a key function: the construction-time
orderability scan is skipped (`key is None` fails), then every initial
item is pushed through `__prepare_value` + `heapq.heappush`. -/
def init {β : Type} [LinearOrder β] (items : List β) (ht : HeapType) (key : β → Int) :
    KQueue β :=
  items.foldl (fun q item => push q item) { key := key, heap_type := ht, heap := [] }

/-- `HeapQueue.peek`: raise on the empty queue, otherwise return
`self._heap[0][1]` without mutating anything. -/
def peek {β : Type} [LinearOrder β] (q : KQueue β) : Except Err β :=
  match q.heap with
  | [] => Except.error Err.emptyQueue
  | e :: _ => Except.ok e.elem

/-- `HeapQueue.pop`: raise on the empty queue, otherwise
`heapq.heappop(self._heap)[1]`.  The first component is the state of the
queue after the call (Python mutates in place). -/
def pop {β : Type} [LinearOrder β] (q : KQueue β) : KQueue β × Except Err β :=
  if q.heap.length = 0 then (q, Except.error Err.emptyQueue)
  else
    match heappop entryLtK q.heap with
    | none => (q, Except.error Err.emptyQueue)
    | some (e, h2) => ({ q with heap := h2 }, Except.ok e.elem)

/-- `HeapQueue.pop_k`: validate `k <= 0` then `k > len(self._heap)` before
touching the heap, then pop `k` times collecting the `[1]` components. -/
def pop_k {β : Type} [LinearOrder β] (q : KQueue β) (k : Int) :
    KQueue β × Except Err (List β) :=
  if k ≤ 0 then (q, Except.error Err.invalidArgument)
  else if (q.heap.length : Int) < k then (q, Except.error Err.insufficientSize)
  else
    let r := popN entryLtK k.toNat q.heap
    ({ q with heap := r.2 }, Except.ok (r.1.map Entry.elem))

/-- `HeapQueue.as_sorted_list`:
`list(map(lambda x: x[1], sorted(self._heap, key=lambda x: x[0])))`.
Python's `sorted` is a stable ascending sort by the given key; so is
`List.insertionSort` with the total preorder `a.key ≤ b.key`, so the two
agree on every input.  `sorted` works on a copy, so `self._heap` is not
touched. -/
def as_sorted_list {β : Type} [LinearOrder β] (q : KQueue β) : List β :=
  (List.insertionSort (fun a b : Entry β => a.key ≤ b.key) q.heap).map Entry.elem

/-- The user-visible contents of the queue (second tuple components). -/
def elems {β : Type} (q : KQueue β) : List β := q.heap.map Entry.elem

/-- `k` sequential `HeapQueue.pop` calls, collecting the successful
results (stopping at an error, which cannot occur when `k ≤ size`). -/
def iterPop {β : Type} [LinearOrder β] : Nat → KQueue β → List β × KQueue β
  | 0, q => ([], q)
  | n + 1, q =>
    match pop q with
    | (q2, Except.ok x) =>
      let r := iterPop n q2
      (x :: r.1, r.2)
    | (q2, Except.error _) => ([], q2)

/-- How one element's priority compares to another's under the configured
polarity and projection: `prioGE q a b` states that `a`'s priority is at
least as high as `b`'s (small keys win for `MIN_HEAP`, large keys for
`MAX_HEAP`). -/
def prioGE {β : Type} (q : KQueue β) (a b : β) : Prop :=
  match q.heap_type with
  | .MIN_HEAP => q.key a ≤ q.key b
  | .MAX_HEAP => q.key b ≤ q.key a

/-- Internal well-formedness: the entry list satisfies the binary-heap
invariant and every stored entry carries the polarity-adjusted key of its
element. -/
def EntriesWF {β : Type} [LinearOrder β] (q : KQueue β) : Prop :=
  HeapInv q.heap ∧ ∀ e ∈ q.heap, e.key = adjKey q.heap_type q.key e.elem

/-- The queues reachable through the public API: built by `__init__` and
closed under `push`, successful `pop` and successful `pop_k` (`peek` and
`as_sorted_list` do not mutate; failing `pop`/`pop_k` return the queue
unchanged). -/
inductive Reach {β : Type} [LinearOrder β] : KQueue β → Prop where
  | init_q : ∀ (items : List β) (ht : HeapType) (key : β → Int), Reach (init items ht key)
  | push_q : ∀ {q : KQueue β} (item : β), Reach q → Reach (push q item)
  | pop_q : ∀ {q q2 : KQueue β} {x : β}, Reach q → pop q = (q2, Except.ok x) → Reach q2
  | pop_k_q : ∀ {q q2 : KQueue β} {k : Int} {l : List β},
      Reach q → pop_k q k = (q2, Except.ok l) → Reach q2

theorem push_WF {β : Type} [LinearOrder β] {q : KQueue β} (h : EntriesWF q) (item : β) :
    EntriesWF (push q item) := by
  obtain ⟨hinv, hkeys⟩ := h
  constructor
  · show HeapInv (heappush entryLtK q.heap (prepare_value q.heap_type q.key item))
    rw [entryLtK_fn_eq]
    exact heappush_heapInv hinv
  · intro e he
    have hperm := heappush_perm entryLtK q.heap (prepare_value q.heap_type q.key item)
    have hmem := hperm.mem_iff.mp he
    rcases List.mem_cons.mp hmem with heq | hmem'
    · rw [heq, prepare_value_eq]; rfl
    · exact hkeys e hmem'

theorem foldl_push_spec {β : Type} [LinearOrder β] :
    ∀ (items : List β) (q : KQueue β),
      (items.foldl (fun q item => push q item) q).key = q.key ∧
      (items.foldl (fun q item => push q item) q).heap_type = q.heap_type ∧
      ((items.foldl (fun q item => push q item) q).heap).Perm
        ((items.map (prepare_value q.heap_type q.key)) ++ q.heap) ∧
      (EntriesWF q → EntriesWF (items.foldl (fun q item => push q item) q)) := by
  intro items
  induction items with
  | nil =>
    intro q
    refine ⟨rfl, rfl, ?_, id⟩
    simp only [List.map_nil, List.foldl_nil, List.nil_append]
    exact List.Perm.refl q.heap
  | cons i rest ih =>
    intro q
    simp only [List.foldl_cons, List.map_cons]
    obtain ⟨hk, hh, hp, hwf⟩ := ih (push q i)
    refine ⟨hk, hh, ?_, fun h => hwf (push_WF h i)⟩
    have hpush : (push q i).heap.Perm (prepare_value q.heap_type q.key i :: q.heap) :=
      heappush_perm entryLtK q.heap (prepare_value q.heap_type q.key i)
    have h1 : ((rest.foldl (fun q item => push q item) (push q i)).heap).Perm
        ((rest.map (prepare_value q.heap_type q.key)) ++ (push q i).heap) := hp
    have h2 : ((rest.map (prepare_value q.heap_type q.key)) ++ (push q i).heap).Perm
        ((rest.map (prepare_value q.heap_type q.key)) ++
          (prepare_value q.heap_type q.key i :: q.heap)) :=
      List.Perm.append_left _ hpush
    have h3 : ((rest.map (prepare_value q.heap_type q.key)) ++
        (prepare_value q.heap_type q.key i :: q.heap)).Perm
        (prepare_value q.heap_type q.key i ::
          ((rest.map (prepare_value q.heap_type q.key)) ++ q.heap)) :=
      List.perm_middle
    exact (h1.trans h2).trans h3

theorem init_key {β : Type} [LinearOrder β] (items : List β) (ht : HeapType)
    (key : β → Int) : (init items ht key).key = key :=
  (foldl_push_spec items _).1

theorem init_heap_type {β : Type} [LinearOrder β] (items : List β) (ht : HeapType)
    (key : β → Int) : (init items ht key).heap_type = ht :=
  (foldl_push_spec items _).2.1

theorem init_perm {β : Type} [LinearOrder β] (items : List β) (ht : HeapType)
    (key : β → Int) :
    ((init items ht key).heap).Perm (items.map (prepare_value ht key)) := by
  have h := (foldl_push_spec items { key := key, heap_type := ht, heap := [] }).2.2.1
  simpa using h

theorem init_length {β : Type} [LinearOrder β] (items : List β) (ht : HeapType)
    (key : β → Int) : (init items ht key).heap.length = items.length := by
  rw [(init_perm items ht key).length_eq, List.length_map]

theorem init_WF {β : Type} [LinearOrder β] (items : List β) (ht : HeapType)
    (key : β → Int) : EntriesWF (init items ht key) := by
  apply (foldl_push_spec items _).2.2.2
  exact ⟨heapInv_nil, by intro e he; simp at he⟩

theorem pop_WF {β : Type} [LinearOrder β] {q q2 : KQueue β} {x : β} (h : EntriesWF q)
    (hp : pop q = (q2, Except.ok x)) : EntriesWF q2 := by
  obtain ⟨hinv, hkeys⟩ := h
  unfold pop at hp
  by_cases h0 : q.heap.length = 0
  · rw [if_pos h0] at hp
    exact absurd (congrArg Prod.snd hp) (by simp)
  · rw [if_neg h0] at hp
    cases hpop : heappop entryLtK q.heap with
    | none => rw [hpop] at hp; exact absurd (congrArg Prod.snd hp) (by simp)
    | some pr =>
      obtain ⟨e, h2⟩ := pr
      rw [hpop] at hp
      have hq2 : q2 = { q with heap := h2 } := (congrArg Prod.fst hp).symm
      rw [entryLtK_fn_eq] at hpop
      obtain ⟨hperm, hinv2, hmin⟩ := heappop_spec hinv hpop
      subst hq2
      refine ⟨hinv2, ?_⟩
      intro f hf
      exact hkeys f (hperm.mem_iff.mp (List.mem_cons_of_mem e hf))

theorem pop_k_WF {β : Type} [LinearOrder β] {q q2 : KQueue β} {k : Int} {l : List β}
    (h : EntriesWF q) (hp : pop_k q k = (q2, Except.ok l)) : EntriesWF q2 := by
  obtain ⟨hinv, hkeys⟩ := h
  unfold pop_k at hp
  rw [entryLtK_fn_eq] at hp
  by_cases hk0 : k ≤ 0
  · rw [if_pos hk0] at hp
    exact absurd (congrArg Prod.snd hp) (by simp)
  · rw [if_neg hk0] at hp
    by_cases hkn : (q.heap.length : Int) < k
    · rw [if_pos hkn] at hp
      exact absurd (congrArg Prod.snd hp) (by simp)
    · rw [if_neg hkn] at hp
      have hq2 : q2 = { q with heap := (popN (ltb (Entry β)) k.toNat q.heap).2 } :=
        (congrArg Prod.fst hp).symm
      have hkle : k.toNat ≤ q.heap.length := by omega
      have hspec := popN_spec k.toNat q.heap hinv hkle
      subst hq2
      refine ⟨hspec.2.2.1, ?_⟩
      intro f hf
      exact hkeys f (hspec.2.1.mem_iff.mp (List.mem_append_right _ hf))

theorem Reach_WF {β : Type} [LinearOrder β] {q : KQueue β} (h : Reach q) :
    EntriesWF q := by
  induction h with
  | init_q items ht key => exact init_WF items ht key
  | push_q item _ ih => exact push_WF ih item
  | pop_q _ hp ih => exact pop_WF ih hp
  | pop_k_q _ hp ih => exact pop_k_WF ih hp

/-- In a well-keyed queue, the internal entry order, restricted to its key
component, is exactly the user-visible priority order. -/
theorem prio_of_entry_le {β : Type} [LinearOrder β] (q : KQueue β)
    (hkeys : ∀ e ∈ q.heap, e.key = adjKey q.heap_type q.key e.elem)
    {e f : Entry β} (he : e ∈ q.heap) (hf : f ∈ q.heap) (hle : e ≤ f) :
    prioGE q e.elem f.elem := by
  have hkey_le : e.key ≤ f.key := by
    rcases Entry.le_iff.mp hle with h1 | h2
    · exact le_of_lt h1
    · exact le_of_eq h2.1
  rw [hkeys e he, hkeys f hf] at hkey_le
  cases hht : q.heap_type with
  | MIN_HEAP =>
    rw [hht] at hkey_le
    simp only [adjKey] at hkey_le
    simp only [prioGE, hht]
    exact hkey_le
  | MAX_HEAP =>
    rw [hht] at hkey_le
    simp only [adjKey] at hkey_le
    simp only [prioGE, hht]
    omega

/-- C1: on every reachable queue, a non-empty `peek` returns (without any
mutation: `peek` is a pure observation of `self._heap[0][1]`) an element
whose priority, under the configured polarity and projection, is extreme
among all stored elements; on the empty queue `peek` fails with the
empty-queue error. -/
theorem C1_peek_extreme {β : Type} [LinearOrder β] (q : KQueue β) (hq : Reach q) :
    (q.heap = [] → peek q = Except.error Err.emptyQueue) ∧
    (q.heap ≠ [] → ∃ t, peek q = Except.ok t ∧ t ∈ elems q ∧
      ∀ x ∈ elems q, prioGE q t x) := by
  obtain ⟨hinv, hkeys⟩ := Reach_WF hq
  constructor
  · intro h
    unfold peek
    rw [h]
  · intro hne
    cases hh : q.heap with
    | nil => exact absurd hh hne
    | cons e rest =>
      refine ⟨e.elem, ?_, ?_, ?_⟩
      · unfold peek; rw [hh]
      · unfold elems; rw [hh]; exact List.mem_map_of_mem _ (List.mem_cons_self e rest)
      · intro x hx
        obtain ⟨f, hf, hfe⟩ := List.mem_map.mp hx
        have hroot : q.heap[0]? = some e := by rw [hh]; simp
        obtain ⟨n, hn⟩ := List.mem_iff_getElem?.mp hf
        have hle : e ≤ f := root_le_of_heapInv hinv hroot n f hn
        have hmem_e : e ∈ q.heap := by rw [hh]; exact List.mem_cons_self e rest
        rw [← hfe]
        exact prio_of_entry_le q hkeys hmem_e hf hle

/-- Witness for C1 on the concrete queue built from `[3, 1, 2]` with the
identity projection and MIN polarity. -/
theorem C1_witness :
    ∃ t, peek (init ([3, 1, 2] : List Int) HeapType.MIN_HEAP (fun v => v)) = Except.ok t ∧
      t ∈ elems (init ([3, 1, 2] : List Int) HeapType.MIN_HEAP (fun v => v)) ∧
      ∀ x ∈ elems (init ([3, 1, 2] : List Int) HeapType.MIN_HEAP (fun v => v)),
        prioGE (init ([3, 1, 2] : List Int) HeapType.MIN_HEAP (fun v => v)) t x :=
  (C1_peek_extreme _ (Reach.init_q _ _ _)).2 (by decide)

/-- C9: on every reachable queue, `pop` on a non-empty queue removes and
returns a priority-extreme element, restores the heap invariant and
shrinks the size by one; on the empty queue `pop` and `peek` fail with the
empty-queue error and `pop_k 1` fails with the insufficient-size error. -/
theorem C9_pop_spec {β : Type} [LinearOrder β] (q : KQueue β) (hq : Reach q) :
    (q.heap ≠ [] → ∃ x q2, pop q = (q2, Except.ok x) ∧ x ∈ elems q ∧
      (∀ y ∈ elems q, prioGE q x y) ∧ HeapInv q2.heap ∧
      ((x :: elems q2).Perm (elems q)) ∧ q2.heap.length + 1 = q.heap.length) ∧
    (q.heap = [] → pop q = (q, Except.error Err.emptyQueue) ∧
      peek q = Except.error Err.emptyQueue ∧
      pop_k q 1 = (q, Except.error Err.insufficientSize)) := by
  obtain ⟨hinv, hkeys⟩ := Reach_WF hq
  constructor
  · intro hne
    have hlen : q.heap.length ≠ 0 := by
      intro h0
      exact hne (List.length_eq_zero.mp h0)
    cases hpop : heappop entryLtK q.heap with
    | none =>
      rw [entryLtK_fn_eq] at hpop
      exact absurd ((heappop_eq_none_iff _ _).mp hpop) hne
    | some pr =>
      obtain ⟨e, h2⟩ := pr
      have hpop' := hpop
      rw [entryLtK_fn_eq] at hpop'
      obtain ⟨hperm, hinv2, hmin⟩ := heappop_spec hinv hpop'
      refine ⟨e.elem, { q with heap := h2 }, ?_, ?_, ?_, hinv2, ?_, ?_⟩
      · unfold pop
        rw [if_neg hlen, hpop]
      · exact List.mem_map_of_mem _ (hperm.mem_iff.mp (List.mem_cons_self e h2))
      · intro y hy
        obtain ⟨f, hf, hfe⟩ := List.mem_map.mp hy
        have hle : e ≤ f := hmin f hf
        have hmem_e : e ∈ q.heap := hperm.mem_iff.mp (List.mem_cons_self e h2)
        rw [← hfe]
        exact prio_of_entry_le q hkeys hmem_e hf hle
      · show (e.elem :: h2.map Entry.elem).Perm (q.heap.map Entry.elem)
        have := hperm.map Entry.elem
        simpa using this
      · exact heappop_length _ hpop'
  · intro h
    have hlen : q.heap.length = 0 := by rw [h]; rfl
    refine ⟨?_, ?_, ?_⟩
    · unfold pop; rw [if_pos hlen]
    · unfold peek; rw [h]
    · unfold pop_k
      rw [if_neg (by omega : ¬ (1 : Int) ≤ 0),
        if_pos (by rw [hlen]; exact by omega : ((q.heap.length : Int) < 1))]

/-- Witness for C9 on the concrete queue built from `[3, 1]` with MAX
polarity, and on the empty queue. -/
theorem C9_witness :
    (∃ x q2, pop (init ([3, 1] : List Int) HeapType.MAX_HEAP (fun v => v)) =
        (q2, Except.ok x) ∧
      x ∈ elems (init ([3, 1] : List Int) HeapType.MAX_HEAP (fun v => v)) ∧
      (∀ y ∈ elems (init ([3, 1] : List Int) HeapType.MAX_HEAP (fun v => v)),
        prioGE (init ([3, 1] : List Int) HeapType.MAX_HEAP (fun v => v)) x y) ∧
      HeapInv q2.heap ∧
      ((x :: elems q2).Perm
        (elems (init ([3, 1] : List Int) HeapType.MAX_HEAP (fun v => v)))) ∧
      q2.heap.length + 1 =
        (init ([3, 1] : List Int) HeapType.MAX_HEAP (fun v => v)).heap.length) ∧
    (pop (init ([] : List Int) HeapType.MIN_HEAP (fun v => v)) =
      (init ([] : List Int) HeapType.MIN_HEAP (fun v => v), Except.error Err.emptyQueue)) :=
  ⟨(C9_pop_spec _ (Reach.init_q _ _ _)).1 (by decide),
   ((C9_pop_spec _ (Reach.init_q _ _ _)).2 (by decide)).1⟩

/-- C3: `pop_k` rejects `k ≤ 0` with the invalid-argument error and
`k > size` with the insufficient-size error, returning the queue
unmodified in both cases (both checks precede any pop). -/
theorem C3_pop_k_guards {β : Type} [LinearOrder β] (q : KQueue β) (k : Int) :
    (k ≤ 0 → pop_k q k = (q, Except.error Err.invalidArgument)) ∧
    ((q.heap.length : Int) < k → pop_k q k = (q, Except.error Err.insufficientSize)) := by
  constructor
  · intro h
    unfold pop_k
    rw [if_pos h]
  · intro h
    have hk0 : ¬ k ≤ 0 := by omega
    unfold pop_k
    rw [if_neg hk0, if_pos h]

theorem iterPop_eq {β : Type} [LinearOrder β] :
    ∀ (n : Nat) (q : KQueue β),
      iterPop n q = ((popN entryLtK n q.heap).1.map Entry.elem,
        { q with heap := (popN entryLtK n q.heap).2 }) := by
  intro n
  induction n with
  | zero => intro q; rfl
  | succ n ih =>
    intro q
    cases hpop : heappop entryLtK q.heap with
    | none =>
      have hnil : q.heap = [] := by
        rw [entryLtK_fn_eq] at hpop
        exact (heappop_eq_none_iff _ _).mp hpop
      have hlen : q.heap.length = 0 := by rw [hnil]; rfl
      simp only [iterPop, pop, if_pos hlen, hpop, popN, List.map_nil]
    | some pr =>
      obtain ⟨e, h2⟩ := pr
      have hlen : q.heap.length ≠ 0 := by
        intro h0
        rw [List.length_eq_zero.mp h0] at hpop
        simp [heappop] at hpop
      simp only [iterPop, pop, if_neg hlen, hpop, popN, List.map_cons, ih]

/-- C2: on every reachable queue of size `n` and every `0 < k ≤ n`,
`pop_k k` succeeds, its result and final state are exactly those of `k`
sequential `pop` calls, the returned list has length `k` and is sorted in
descending priority (its first element is priority-extreme among all
elements initially stored), and the remaining size is `n - k`. -/
theorem C2_pop_k_spec {β : Type} [LinearOrder β] (q : KQueue β) (hq : Reach q)
    (k : Int) (hk0 : 0 < k) (hkn : k ≤ (q.heap.length : Int)) :
    ∃ l q2, pop_k q k = (q2, Except.ok l) ∧
      (l, q2) = iterPop k.toNat q ∧
      l.length = k.toNat ∧
      q2.heap.length = q.heap.length - k.toNat ∧
      List.Sorted (prioGE q) l ∧
      (∀ a ∈ l, ∀ b ∈ elems q2, prioGE q a b) ∧
      (∀ hd ∈ l.head?, ∀ x ∈ elems q, prioGE q hd x) := by
  obtain ⟨hinv, hkeys⟩ := Reach_WF hq
  have hk0' : ¬ k ≤ 0 := by omega
  have hkn' : ¬ (q.heap.length : Int) < k := by omega
  have hkle : k.toNat ≤ q.heap.length := by omega
  have hspec := popN_spec k.toNat q.heap hinv hkle
  obtain ⟨hlen, hperm, hinv2, hsorted, hcross⟩ := hspec
  rw [← entryLtK_fn_eq] at hlen hperm hinv2 hsorted hcross
  have hmem1 : ∀ e ∈ (popN entryLtK k.toNat q.heap).1, e ∈ q.heap := by
    intro e he
    exact hperm.mem_iff.mp (List.mem_append_left _ he)
  have hmem2 : ∀ e ∈ (popN entryLtK k.toNat q.heap).2, e ∈ q.heap := by
    intro e he
    exact hperm.mem_iff.mp (List.mem_append_right _ he)
  refine ⟨(popN entryLtK k.toNat q.heap).1.map Entry.elem,
    { q with heap := (popN entryLtK k.toNat q.heap).2 }, ?_, ?_, ?_, ?_, ?_, ?_, ?_⟩
  · unfold pop_k
    rw [if_neg hk0', if_neg hkn']
  · rw [iterPop_eq]
  · rw [List.length_map, hlen]
  · show (popN entryLtK k.toNat q.heap).2.length = q.heap.length - k.toNat
    have := hperm.length_eq
    rw [List.length_append, hlen] at this
    omega
  · rw [List.Sorted, List.pairwise_map]
    apply List.Pairwise.imp_of_mem ?_ hsorted
    intro e f he hf hle
    exact prio_of_entry_le q hkeys (hmem1 e he) (hmem1 f hf) hle
  · intro a ha b hb
    obtain ⟨e, he, hea⟩ := List.mem_map.mp ha
    obtain ⟨f, hf, hfb⟩ := List.mem_map.mp hb
    rw [← hea, ← hfb]
    exact prio_of_entry_le q hkeys (hmem1 e he) (hmem2 f hf) (hcross e he f hf)
  · intro hd hhd x hx
    obtain ⟨f, hf, hfe⟩ := List.mem_map.mp hx
    cases hfst : (popN entryLtK k.toNat q.heap).1 with
    | nil => rw [hfst] at hhd; simp at hhd
    | cons e rest =>
      rw [hfst] at hhd
      simp only [List.map_cons, List.head?_cons, Option.mem_def, Option.some_inj] at hhd
      have hmem_e : e ∈ q.heap := hmem1 e (by rw [hfst]; exact List.mem_cons_self e rest)
      have hf' : f ∈ (popN entryLtK k.toNat q.heap).1 ++ (popN entryLtK k.toNat q.heap).2 :=
        hperm.mem_iff.mpr hf
      have hle : e ≤ f := by
        rcases List.mem_append.mp hf' with h1 | h2
        · rw [hfst] at h1
          rcases List.mem_cons.mp h1 with heq | h1'
          · rw [heq]
          · have hs := hsorted
            rw [hfst] at hs
            exact List.rel_of_sorted_cons hs f h1'
        · exact hcross e (by rw [hfst]; exact List.mem_cons_self e rest) f h2
      rw [← hhd, ← hfe]
      exact prio_of_entry_le q hkeys hmem_e hf hle

/-- Witness for C2 on the concrete queue `[1, 2, 3, 4]` with the identity
projection, MIN polarity and `k = 3`. -/
theorem C2_witness :
    ∃ l q2, pop_k (init ([1, 2, 3, 4] : List Int) HeapType.MIN_HEAP (fun v => v)) 3 =
        (q2, Except.ok l) ∧
      (l, q2) = iterPop (3 : Int).toNat
        (init ([1, 2, 3, 4] : List Int) HeapType.MIN_HEAP (fun v => v)) ∧
      l.length = (3 : Int).toNat ∧
      q2.heap.length =
        (init ([1, 2, 3, 4] : List Int) HeapType.MIN_HEAP (fun v => v)).heap.length -
          (3 : Int).toNat ∧
      List.Sorted (prioGE (init ([1, 2, 3, 4] : List Int) HeapType.MIN_HEAP (fun v => v))) l ∧
      (∀ a ∈ l, ∀ b ∈ elems q2,
        prioGE (init ([1, 2, 3, 4] : List Int) HeapType.MIN_HEAP (fun v => v)) a b) ∧
      (∀ hd ∈ l.head?,
        ∀ x ∈ elems (init ([1, 2, 3, 4] : List Int) HeapType.MIN_HEAP (fun v => v)),
          prioGE (init ([1, 2, 3, 4] : List Int) HeapType.MIN_HEAP (fun v => v)) hd x) :=
  C2_pop_k_spec _ (Reach.init_q _ _ _) 3 (by decide) (by decide)

/-- Witness for C3: `pop_k 0` and `pop_k (-1)` fail with the
invalid-argument error, `pop_k 2` on a one-element queue fails with the
insufficient-size error, and each failure returns the queue unchanged. -/
theorem C3_witness :
    pop_k (init ([5] : List Int) HeapType.MIN_HEAP (fun v => v)) 0 =
      (init ([5] : List Int) HeapType.MIN_HEAP (fun v => v),
        Except.error Err.invalidArgument) ∧
    pop_k (init ([5] : List Int) HeapType.MIN_HEAP (fun v => v)) (-1) =
      (init ([5] : List Int) HeapType.MIN_HEAP (fun v => v),
        Except.error Err.invalidArgument) ∧
    pop_k (init ([5] : List Int) HeapType.MIN_HEAP (fun v => v)) 2 =
      (init ([5] : List Int) HeapType.MIN_HEAP (fun v => v),
        Except.error Err.insufficientSize) :=
  ⟨(C3_pop_k_guards _ _).1 (by decide), (C3_pop_k_guards _ _).1 (by decide),
   (C3_pop_k_guards _ _).2 (by decide)⟩

/-- Two lists that are permutations of each other and both sorted by `r`
are equal, provided `r` is antisymmetric on the elements of the first. -/
theorem eq_of_perm_of_sorted_of_antisymm {γ : Type} {r : γ → γ → Prop} :
    ∀ {l1 l2 : List γ}, l1.Perm l2 → List.Sorted r l1 → List.Sorted r l2 →
      (∀ a ∈ l1, ∀ b ∈ l1, r a b → r b a → a = b) → l1 = l2 := by
  intro l1
  induction l1 with
  | nil =>
    intro l2 hp _ _ _
    exact (List.Perm.nil_eq hp)
  | cons a t1 ih =>
    intro l2 hp hs1 hs2 hanti
    cases l2 with
    | nil => exact absurd (List.Perm.eq_nil hp) (by simp)
    | cons b t2 =>
      have hab : a = b := by
        by_cases heq : a = b
        · exact heq
        · have hbmem : b ∈ a :: t1 := hp.mem_iff.mpr (List.mem_cons_self b t2)
          have hamem : a ∈ b :: t2 := hp.mem_iff.mp (List.mem_cons_self a t1)
          have hb_t1 : b ∈ t1 := by
            rcases List.mem_cons.mp hbmem with h | h
            · exact absurd h.symm heq
            · exact h
          have ha_t2 : a ∈ t2 := by
            rcases List.mem_cons.mp hamem with h | h
            · exact absurd h heq
            · exact h
          have rab : r a b := List.rel_of_sorted_cons hs1 b hb_t1
          have rba : r b a := List.rel_of_sorted_cons hs2 a ha_t2
          exact hanti a (List.mem_cons_self a t1) b hbmem rab rba
      subst hab
      have hp' : t1.Perm t2 := hp.cons_inv
      have hrec := ih hp' hs1.of_cons hs2.of_cons (by
        intro x hx y hy rxy ryx
        exact hanti x (List.mem_cons_of_mem a hx) y (List.mem_cons_of_mem a hy) rxy ryx)
      rw [hrec]

instance entryKeyLE_total {β : Type} :
    IsTotal (Entry β) (fun a b : Entry β => a.key ≤ b.key) :=
  ⟨fun a b => le_total a.key b.key⟩

instance entryKeyLE_trans {β : Type} :
    IsTrans (Entry β) (fun a b : Entry β => a.key ≤ b.key) :=
  ⟨fun a b c h1 h2 => le_trans h1 h2⟩

/-- Popping out the whole heap yields a sorted permutation of it. -/
theorem popN_full_perm {β : Type} [LinearOrder β] (q : KQueue β)
    (hinv : HeapInv q.heap) :
    ((popN entryLtK q.heap.length q.heap).1).Perm q.heap ∧
    List.Sorted (fun a b : Entry β => a ≤ b) (popN entryLtK q.heap.length q.heap).1 := by
  have hspec := popN_spec q.heap.length q.heap hinv (le_refl _)
  rw [← entryLtK_fn_eq] at hspec
  obtain ⟨hlen, hperm, _, hsorted, _⟩ := hspec
  have hlen2 := hperm.length_eq
  rw [List.length_append, hlen] at hlen2
  have hrest : (popN entryLtK q.heap.length q.heap).2 = [] :=
    List.eq_nil_of_length_eq_zero (by omega)
  rw [hrest, List.append_nil] at hperm
  exact ⟨hperm, hsorted⟩

/-- C4 fails as stated: on the MIN queue built from `[3, 1, 2]` with the
constant projection `0`, `as_sorted_list` returns `[1, 3, 2]` (a stable
sort of the internal entry list by ordering key alone), while three
`pop` calls return `[1, 2, 3]` (ties broken by comparing the elements
themselves inside the heap). -/
theorem C4_counterexample :
    as_sorted_list (init ([3, 1, 2] : List Int) HeapType.MIN_HEAP (fun _ => 0)) =
      [1, 3, 2] ∧
    (iterPop 3 (init ([3, 1, 2] : List Int) HeapType.MIN_HEAP (fun _ => 0))).1 =
      [1, 2, 3] ∧
    (pop_k (init ([3, 1, 2] : List Int) HeapType.MIN_HEAP (fun _ => 0)) 3).2 =
      Except.ok [1, 2, 3] ∧
    ([1, 3, 2] : List Int) ≠ [1, 2, 3] :=
  ⟨rfl, rfl, rfl, by decide⟩

/-- C4 (amended): on every reachable queue, `as_sorted_list` returns a
permutation of the stored elements without mutating the queue (it is a
pure function of the state), and whenever the stored ordering keys are
pairwise distinct its order coincides with the sequence obtained by
popping the whole queue with `pop`. -/
theorem C4_as_sorted_list {β : Type} [LinearOrder β] (q : KQueue β) (hq : Reach q)
    (hkeysnd : (q.heap.map Entry.key).Nodup) :
    (as_sorted_list q).Perm (elems q) ∧
    as_sorted_list q = (iterPop q.heap.length q).1 := by
  obtain ⟨hinv, hkeys⟩ := Reach_WF hq
  have hsortperm : (List.insertionSort (fun a b : Entry β => a.key ≤ b.key) q.heap).Perm
      q.heap := List.perm_insertionSort _ _
  constructor
  · exact hsortperm.map Entry.elem
  · rw [iterPop_eq]
    show (List.insertionSort (fun a b : Entry β => a.key ≤ b.key) q.heap).map Entry.elem =
      ((popN entryLtK q.heap.length q.heap).1).map Entry.elem
    obtain ⟨hpopperm, hpopsorted⟩ := popN_full_perm q hinv
    have hentry_eq : List.insertionSort (fun a b : Entry β => a.key ≤ b.key) q.heap =
        (popN entryLtK q.heap.length q.heap).1 := by
      apply eq_of_perm_of_sorted_of_antisymm (hsortperm.trans hpopperm.symm)
      · exact List.sorted_insertionSort _ _
      · apply List.Pairwise.imp ?_ hpopsorted
        intro e f hle
        rcases Entry.le_iff.mp hle with h1 | h2
        · exact le_of_lt h1
        · exact le_of_eq h2.1
      · intro e he f hf hef hfe
        have hkey : e.key = f.key := le_antisymm hef hfe
        exact List.inj_on_of_nodup_map hkeysnd
          (hsortperm.mem_iff.mp he) (hsortperm.mem_iff.mp hf) hkey
    rw [hentry_eq]

/-- Witness for the amended C4 on the concrete queue `[3, 1, 2]` with the
identity projection (all ordering keys distinct). -/
theorem C4_witness :
    (as_sorted_list (init ([3, 1, 2] : List Int) HeapType.MIN_HEAP (fun v => v))).Perm
      (elems (init ([3, 1, 2] : List Int) HeapType.MIN_HEAP (fun v => v))) ∧
    as_sorted_list (init ([3, 1, 2] : List Int) HeapType.MIN_HEAP (fun v => v)) =
      (iterPop (init ([3, 1, 2] : List Int) HeapType.MIN_HEAP (fun v => v)).heap.length
        (init ([3, 1, 2] : List Int) HeapType.MIN_HEAP (fun v => v))).1 :=
  C4_as_sorted_list _ (Reach.init_q _ _ _) (by decide)

theorem map_elem_prepare {β : Type} (ht : HeapType) (key : β → Int) (S : List β) :
    (S.map (prepare_value ht key)).map Entry.elem = S := by
  rw [List.map_map]
  have h : (Entry.elem ∘ prepare_value ht key) = id := by
    funext s; cases ht <;> rfl
  rw [h, List.map_id]

/-- Popping everything out of a freshly constructed keyed queue: the call
succeeds, returns a permutation of the initial items, and the returned
sequence is sorted by ascending polarity-adjusted key. -/
theorem pop_k_init_full {β : Type} [LinearOrder β] (S : List β) (P : β → Int)
    (ht : HeapType) (hS : S ≠ []) :
    pop_k (init S ht P) (S.length : Int) =
      ({ init S ht P with heap := (popN entryLtK S.length (init S ht P).heap).2 },
        Except.ok (((popN entryLtK S.length (init S ht P).heap).1).map Entry.elem)) ∧
    ((((popN entryLtK S.length (init S ht P).heap).1).map Entry.elem)).Perm S ∧
    List.Pairwise (fun a b : β => adjKey ht P a ≤ adjKey ht P b)
      (((popN entryLtK S.length (init S ht P).heap).1).map Entry.elem) := by
  have hlen_init : (init S ht P).heap.length = S.length := init_length S ht P
  have hS0 : 0 < S.length := List.length_pos.mpr hS
  obtain ⟨hinv, hkeys⟩ := init_WF S ht P
  rw [init_key S ht P, init_heap_type S ht P] at hkeys
  obtain ⟨hpopperm, hpopsorted⟩ := popN_full_perm (init S ht P) hinv
  rw [hlen_init] at hpopperm hpopsorted
  have hmem : ∀ e ∈ (popN entryLtK S.length (init S ht P).heap).1,
      e ∈ (init S ht P).heap := fun e he => hpopperm.mem_iff.mp he
  refine ⟨?_, ?_, ?_⟩
  · unfold pop_k
    rw [if_neg (by omega : ¬ ((S.length : Int) ≤ 0)),
      if_neg (by rw [hlen_init]; omega :
        ¬ (((init S ht P).heap.length : Int) < (S.length : Int)))]
    simp only [Int.toNat_natCast]
  · have h1 := hpopperm.map Entry.elem
    have h2 := (init_perm S ht P).map Entry.elem
    rw [map_elem_prepare] at h2
    exact h1.trans h2
  · rw [List.pairwise_map]
    apply List.Pairwise.imp_of_mem ?_ hpopsorted
    intro e f he hf hle
    have hke := hkeys e (hmem e he)
    have hkf := hkeys f (hmem f hf)
    have hkey_le : e.key ≤ f.key := by
      rcases Entry.le_iff.mp hle with h1 | h2
      · exact le_of_lt h1
      · exact le_of_eq h2.1
    rw [hke, hkf] at hkey_le
    exact hkey_le

/-- C5 fails as stated: with `S = [1, 2]` and the constant projection `0`,
draining the MAX queue returns `[1, 2]` and draining the MIN queue also
returns `[1, 2]` (key ties are broken by comparing the elements
themselves, ascending, under both polarities), so the MAX sequence is not
the reverse of the MIN sequence. -/
theorem C5_counterexample :
    (pop_k (init ([1, 2] : List Int) HeapType.MAX_HEAP (fun _ => 0)) 2).2 =
      Except.ok [1, 2] ∧
    (pop_k (init ([1, 2] : List Int) HeapType.MIN_HEAP (fun _ => 0)) 2).2 =
      Except.ok [1, 2] ∧
    ([1, 2] : List Int) ≠ List.reverse [1, 2] :=
  ⟨rfl, rfl, by decide⟩

/-- C5 (amended): for every non-empty element sequence `S` and projection
`P` that is injective on `S` (no two elements share a priority), the
sequence drained from the MAX-polarity queue built from `S` and `P` by
`pop_k (len S)` is the reverse of the sequence drained from the
MIN-polarity queue built from the same `S` and `P`. -/
theorem C5_polarity_symmetry {β : Type} [LinearOrder β] (S : List β) (P : β → Int)
    (hS : S ≠ []) (hinj : (S.map P).Nodup) :
    ∃ lmax lmin qM qm,
      pop_k (init S HeapType.MAX_HEAP P) (S.length : Int) = (qM, Except.ok lmax) ∧
      pop_k (init S HeapType.MIN_HEAP P) (S.length : Int) = (qm, Except.ok lmin) ∧
      lmax = lmin.reverse := by
  obtain ⟨hM1, hM2, hM3⟩ := pop_k_init_full S P HeapType.MAX_HEAP hS
  obtain ⟨hm1, hm2, hm3⟩ := pop_k_init_full S P HeapType.MIN_HEAP hS
  refine ⟨_, _, _, _, hM1, hm1, ?_⟩
  have hmaxpair : List.Pairwise (fun a b : β => P b ≤ P a)
      (((popN entryLtK S.length (init S HeapType.MAX_HEAP P).heap).1).map Entry.elem) := by
    apply List.Pairwise.imp ?_ hM3
    intro a b h
    simp only [adjKey] at h
    omega
  have hminpair : List.Pairwise (fun a b : β => P a ≤ P b)
      (((popN entryLtK S.length (init S HeapType.MIN_HEAP P).heap).1).map Entry.elem) := by
    apply List.Pairwise.imp ?_ hm3
    intro a b h
    simpa only [adjKey] using h
  have hrevpair : List.Pairwise (fun a b : β => P b ≤ P a)
      ((((popN entryLtK S.length (init S HeapType.MIN_HEAP P).heap).1).map
        Entry.elem)).reverse :=
    List.pairwise_reverse.mpr hminpair
  have hperm :
      ((((popN entryLtK S.length (init S HeapType.MAX_HEAP P).heap).1).map
        Entry.elem)).Perm
      ((((popN entryLtK S.length (init S HeapType.MIN_HEAP P).heap).1).map
        Entry.elem)).reverse :=
    hM2.trans (((List.reverse_perm _).trans hm2).symm)
  apply eq_of_perm_of_sorted_of_antisymm hperm hmaxpair hrevpair
  intro a ha b hb hab hba
  have haS : a ∈ S := hM2.mem_iff.mp ha
  have hbS : b ∈ S := hM2.mem_iff.mp hb
  exact List.inj_on_of_nodup_map hinj haS hbS (le_antisymm hba hab)

/-- Witness for the amended C5 with `S = [1, 2]` and the identity
projection (injective on `S`). -/
theorem C5_witness :
    ∃ lmax lmin qM qm,
      pop_k (init ([1, 2] : List Int) HeapType.MAX_HEAP (fun v => v))
          ((([1, 2] : List Int)).length : Int) = (qM, Except.ok lmax) ∧
      pop_k (init ([1, 2] : List Int) HeapType.MIN_HEAP (fun v => v))
          ((([1, 2] : List Int)).length : Int) = (qm, Except.ok lmin) ∧
      lmax = lmin.reverse :=
  C5_polarity_symmetry [1, 2] (fun v => v) (by decide) (by decide)

/-- An element of the dynamically-typed universe handled by `HeapQueue`.
`sortable` models the outcome of the `__is_sortable` class probe
(`cls.__lt__ != object.__lt__ or cls.__gt__ != object.__gt__`); the
payload `val` is what a successful comparison compares.  Comparing two
values succeeds exactly when both are sortable and raises `TypeError`
otherwise. -/
structure PElem where
  val : Int
  sortable : Bool
deriving DecidableEq

/-- `HeapQueue.__is_sortable(obj)`: the duck-typed probe for an overridden
comparison operator. -/
def is_sortable (i : PElem) : Bool := i.sortable

/-- Python `a < b` (and symmetrically `a > b`) between stored values:
defined when both support comparison, `TypeError` (`none`) otherwise. -/
def pLtB (a b : PElem) : Option Bool :=
  if a.sortable && b.sortable then some (decide (a.val < b.val)) else none

/-- Python `a == b` between stored values, as evaluated by tuple
comparison before falling through to `<`: value equality for comparable
values; distinct objects of a class overriding nothing fall back to
identity equality, modelled as `false`. -/
def pEqB (a b : PElem) : Bool := a.sortable && b.sortable && decide (a.val = b.val)

/-- The strict comparison Python performs between two stored heap tuples
with elements `a` and `b`, as a function of the queue configuration.
With a key function the tuples are `(adjKey .., a)` and `(adjKey .., b)`:
tuple `<` first tests the `Int` keys for equality, decides at the keys
when they differ, and falls through to comparing `a` and `b` themselves
on a key tie.  Without a key function the first components are
`functools.cmp_to_key` wrappers whose comparisons all delegate to the
elements (via `__cmp_fn`, reversed for `MAX_HEAP`), so the tuple
comparison reduces to the possibly-failing element comparison. -/
def entryLtP (key : Option (PElem → Int)) (ht : HeapType) (a b : PElem) : Option Bool :=
  match key with
  | some k =>
    if adjKey ht k a = adjKey ht k b then
      (if pEqB a b then some false else pLtB a b)
    else some (decide (adjKey ht k a < adjKey ht k b))
  | none =>
    match ht with
    | .MIN_HEAP => pLtB a b
    | .MAX_HEAP => pLtB b a

section ExceptionalHeap

variable {α : Type}

/-- `heapq._siftdown` when a comparison may raise: on `TypeError` (`none`)
the heap list is returned as mutated so far together with the error,
exactly as the Python list is left when the exception propagates. -/
def siftdownLoopE (lt : α → α → Option Bool) (newitem : α) :
    Nat → List α → Nat → Nat → List α × Option Err
  | fuel + 1, heap, startpos, pos =>
    if startpos < pos then
      let parent := heap.getD (parentIdx pos) newitem
      match lt newitem parent with
      | none => (heap, some Err.cmpTypeError)
      | some true =>
        siftdownLoopE lt newitem fuel (heap.set pos parent) startpos (parentIdx pos)
      | some false => (heap.set pos newitem, none)
    else (heap.set pos newitem, none)
  | 0, heap, _startpos, pos => (heap.set pos newitem, none)

/-- `heapq.heappush` with failable comparison: `heap.append(item)` happens
first, then the sift; a comparison `TypeError` leaves the appended item in
the list. -/
def heappushE (lt : α → α → Option Bool) (heap : List α) (item : α) :
    List α × Option Err :=
  siftdownLoopE lt item heap.length (heap ++ [item]) 0 heap.length

theorem siftdownLoopE_err (lt : α → α → Option Bool) (x : α) :
    ∀ (fuel : Nat) (l : List α) (sp pos : Nat),
      (siftdownLoopE lt x fuel l sp pos).2 = none ∨
      (siftdownLoopE lt x fuel l sp pos).2 = some Err.cmpTypeError := by
  intro fuel
  induction fuel with
  | zero => intro l sp pos; left; rfl
  | succ n ih =>
    intro l sp pos
    simp only [siftdownLoopE]
    by_cases h : sp < pos
    · simp only [if_pos h]
      cases hlt : lt x (l.getD (parentIdx pos) x) with
      | none => right; rfl
      | some tb =>
        cases tb with
        | true => exact ih (l.set pos (l.getD (parentIdx pos) x)) sp (parentIdx pos)
        | false => left; rfl
    · simp [if_neg h]

theorem heappushE_no_unorderable (lt : α → α → Option Bool) (heap : List α) (item : α) :
    (heappushE lt heap item).2 ≠ some Err.unorderable := by
  unfold heappushE
  rcases siftdownLoopE_err lt item heap.length (heap ++ [item]) 0 heap.length with h | h <;>
    rw [h] <;> simp

/-- When every comparison the sift performs is defined, the failable sift
agrees with the total sift and reports no error. -/
theorem siftdownLoopE_ok (lt : α → α → Option Bool) (x : α) :
    ∀ (fuel : Nat) (l : List α) (sp pos : Nat),
      pos < l.length → (∀ b ∈ l, (lt x b).isSome) →
      siftdownLoopE lt x fuel l sp pos =
        (siftdownLoop (fun a b => (lt a b).getD false) x fuel l sp pos, none) := by
  intro fuel
  induction fuel with
  | zero => intro l sp pos hpos hdef; rfl
  | succ n ih =>
    intro l sp pos hpos hdef
    simp only [siftdownLoopE, siftdownLoop]
    by_cases h : sp < pos
    · simp only [if_pos h]
      have hpplen : parentIdx pos < l.length :=
        lt_trans (parentIdx_lt (by omega)) hpos
      obtain ⟨parent, hparent⟩ := getElem?_some_of_lt hpplen
      have hgetD : l.getD (parentIdx pos) x = parent := getD_of_getElem? hparent
      have hparent_mem : parent ∈ l := mem_of_getElem?_some hparent
      have hsome := hdef parent hparent_mem
      rw [hgetD]
      obtain ⟨tb, hlt⟩ := Option.isSome_iff_exists.mp hsome
      simp only [hlt, Option.getD_some]
      cases tb with
      | true =>
        have hdef2 : ∀ b ∈ l.set pos parent, (lt x b).isSome := by
          intro b hb
          rcases List.mem_or_eq_of_mem_set hb with hb' | hb'
          · exact hdef b hb'
          · rw [hb', hlt]; rfl
        rw [if_pos rfl]
        exact ih (l.set pos parent) sp (parentIdx pos)
          (by rw [List.length_set]; exact hpplen) hdef2
      | false =>
        rw [if_neg (by simp)]
    · simp only [if_neg h]

theorem heappushE_ok (lt : α → α → Option Bool) (heap : List α) (item : α)
    (hdef : ∀ b ∈ heap ++ [item], (lt item b).isSome) :
    heappushE lt heap item =
      (heappush (fun a b => (lt a b).getD false) heap item, none) := by
  unfold heappushE heappush
  exact siftdownLoopE_ok lt item heap.length (heap ++ [item]) 0 heap.length
    (by simp) hdef

end ExceptionalHeap

/-- The `HeapQueue` state over dynamically-typed elements: optional key
function, polarity, stored elements.  A stored tuple is a function of its
element and the configuration (`__prepare_value`), so the heap list is
represented by the elements and `entryLtP` recomputes the tuple comparison
Python performs between any two of them. -/
structure PQueue where
  key : Option (PElem → Int)
  heap_type : HeapType
  heap : List PElem

/-- `HeapQueue.push` in the dynamic model: the `__is_sortable` guard fires
before any mutation when no key function is configured and the item does
not support comparison; otherwise `heapq.heappush` runs, and a comparison
`TypeError` inside it is surfaced together with the mutated list. -/
def pushP (q : PQueue) (item : PElem) : PQueue × Option Err :=
  if q.key.isNone && ! (is_sortable item) then (q, some Err.unorderable)
  else
    ({ q with heap := (heappushE (entryLtP q.key q.heap_type) q.heap item).1 },
      (heappushE (entryLtP q.key q.heap_type) q.heap item).2)

/-- `HeapQueue.push_all`: push the items one at a time in iteration order;
the first failure propagates immediately and the earlier pushes remain. -/
def push_all (q : PQueue) : List PElem → PQueue × Option Err
  | [] => (q, none)
  | i :: rest =>
    match pushP q i with
    | (q2, none) => push_all q2 rest
    | (q2, some e) => (q2, some e)

/-- The push loop of `HeapQueue.__init__` (no per-item guard there: the
construction-time sortability scan has already run). -/
def initPushes (lt : PElem → PElem → Option Bool) :
    List PElem → List PElem → List PElem × Option Err
  | h, [] => (h, none)
  | h, i :: rest =>
    match heappushE lt h i with
    | (h2, none) => initPushes lt h2 rest
    | (h2, some e) => (h2, some e)

/-- `HeapQueue.__init__` in the dynamic model: when no key function is
given and `items` is non-empty (`if key is None and items:`), every item
is checked for sortability before anything is inserted (the loop raises at
the first unsortable item, hence iff one exists); afterwards each item is
pushed in order. -/
def initP (items : List PElem) (ht : HeapType) (key : Option (PElem → Int)) :
    Except Err PQueue :=
  if key.isNone && ! items.isEmpty && items.any (fun i => ! (is_sortable i)) then
    Except.error Err.unorderable
  else
    match initPushes (entryLtP key ht) [] items with
    | (h, none) => Except.ok { key := key, heap_type := ht, heap := h }
    | (_, some e) => Except.error e

theorem entryLtP_none_isSome {a b : PElem} (ht : HeapType)
    (ha : a.sortable = true) (hb : b.sortable = true) :
    (entryLtP none ht a b).isSome := by
  cases ht <;> simp [entryLtP, pLtB, ha, hb]

/-- Pushing a sortable item onto an all-sortable unkeyed queue succeeds
and adds exactly that item. -/
theorem pushP_sortable_ok {q : PQueue} {item : PElem} (hkey : q.key = none)
    (hheap : ∀ e ∈ q.heap, e.sortable = true) (hitem : item.sortable = true) :
    ∃ h2, pushP q item = ({ q with heap := h2 }, none) ∧ h2.Perm (item :: q.heap) ∧
      (∀ e ∈ h2, e.sortable = true) := by
  have hguard : ¬ (q.key.isNone && ! (is_sortable item)) = true := by
    simp [is_sortable, hitem]
  have hdef : ∀ b ∈ q.heap ++ [item], ((entryLtP q.key q.heap_type) item b).isSome := by
    intro b hb
    rw [hkey]
    rcases List.mem_append.mp hb with hb' | hb'
    · exact entryLtP_none_isSome q.heap_type hitem (hheap b hb')
    · have : b = item := by simpa using hb'
      rw [this]
      exact entryLtP_none_isSome q.heap_type hitem hitem
  have hok := heappushE_ok (entryLtP q.key q.heap_type) q.heap item hdef
  have hperm := heappush_perm
    (fun a b => ((entryLtP q.key q.heap_type) a b).getD false) q.heap item
  refine ⟨heappush (fun a b => ((entryLtP q.key q.heap_type) a b).getD false) q.heap item,
    ?_, hperm, ?_⟩
  · unfold pushP
    rw [if_neg hguard, hok]
  · intro e he
    rcases List.mem_cons.mp (hperm.mem_iff.mp he) with he' | he'
    · rw [he']; exact hitem
    · exact hheap e he'

/-- C6: `push` fails with the unorderability `TypeError` if and only if no
key function is configured and the item does not support comparison, and
on that failure the queue state is unchanged (the `__is_sortable` guard
runs before the `heapq.heappush` side effect). -/
theorem C6_push_guard (q : PQueue) (item : PElem) :
    ((pushP q item).2 = some Err.unorderable ↔ (q.key = none ∧ item.sortable = false)) ∧
    (q.key = none → item.sortable = false → pushP q item = (q, some Err.unorderable)) := by
  have hguard_case : (q.key.isNone && ! (is_sortable item)) = true ↔
      (q.key = none ∧ item.sortable = false) := by
    simp [is_sortable, Option.isNone_iff_eq_none, Bool.and_eq_true, Bool.not_eq_true']
  constructor
  · constructor
    · intro h
      by_cases hg : (q.key.isNone && ! (is_sortable item)) = true
      · exact hguard_case.mp hg
      · exfalso
        unfold pushP at h
        rw [if_neg hg] at h
        exact heappushE_no_unorderable _ q.heap item h
    · intro hc
      unfold pushP
      rw [if_pos (hguard_case.mpr hc)]
  · intro h1 h2
    unfold pushP
    rw [if_pos (hguard_case.mpr ⟨h1, h2⟩)]

/-- Witness for C6: pushing a non-comparable item onto an empty unkeyed
queue raises the unorderability error and leaves the queue unchanged. -/
theorem C6_witness :
    pushP { key := none, heap_type := HeapType.MIN_HEAP, heap := [] }
        { val := 7, sortable := false } =
      ({ key := none, heap_type := HeapType.MIN_HEAP, heap := [] },
        some Err.unorderable) :=
  (C6_push_guard _ _).2 rfl rfl

/-- Pushing an all-sortable batch into an all-sortable heap with the
unkeyed comparison succeeds and inserts exactly the batch. -/
theorem initPushes_sortable_ok (ht : HeapType) :
    ∀ (todo h : List PElem), (∀ e ∈ h, e.sortable = true) →
      (∀ i ∈ todo, i.sortable = true) →
      ∃ h2, initPushes (entryLtP none ht) h todo = (h2, none) ∧ h2.Perm (h ++ todo) ∧
        (∀ e ∈ h2, e.sortable = true) := by
  intro todo
  induction todo with
  | nil =>
    intro h hh _
    exact ⟨h, rfl, by simp, hh⟩
  | cons i rest ih =>
    intro h hh htodo
    have hi : i.sortable = true := htodo i (List.mem_cons_self i rest)
    have hdef : ∀ b ∈ h ++ [i], ((entryLtP none ht) i b).isSome := by
      intro b hb
      rcases List.mem_append.mp hb with hb' | hb'
      · exact entryLtP_none_isSome ht hi (hh b hb')
      · rw [show b = i by simpa using hb']
        exact entryLtP_none_isSome ht hi hi
    have hok := heappushE_ok (entryLtP none ht) h i hdef
    have hperm := heappush_perm (fun a b => ((entryLtP none ht) a b).getD false) h i
    have hh1s : ∀ e ∈ heappush (fun a b => ((entryLtP none ht) a b).getD false) h i,
        e.sortable = true := by
      intro e he
      rcases List.mem_cons.mp (hperm.mem_iff.mp he) with he' | he'
      · rw [he']; exact hi
      · exact hh e he'
    obtain ⟨h2, heq, hp2, hs2⟩ :=
      ih (heappush (fun a b => ((entryLtP none ht) a b).getD false) h i) hh1s
        (fun j hj => htodo j (List.mem_cons_of_mem i hj))
    refine ⟨h2, ?_, ?_, hs2⟩
    · simp only [initPushes, hok, heq]
    · have h3 : ((heappush (fun a b => ((entryLtP none ht) a b).getD false) h i) ++
          rest).Perm ((i :: h) ++ rest) := hperm.append_right rest
      have h4 : ((i :: h) ++ rest).Perm (h ++ (i :: rest)) := by
        show (i :: (h ++ rest)).Perm (h ++ (i :: rest))
        exact List.perm_middle.symm
      exact hp2.trans (h3.trans h4)

/-- C7: construction without a projection is all-or-nothing: if some
initial element lacks comparison support, construction fails with the
unorderability error before any insertion (no queue holding elements comes
into existence); if every element passes the probe, all of them are
inserted. -/
theorem C7_init_all_or_nothing (items : List PElem) (ht : HeapType) :
    ((∃ i ∈ items, i.sortable = false) →
      initP items ht none = Except.error Err.unorderable) ∧
    ((∀ i ∈ items, i.sortable = true) →
      ∃ q, initP items ht none = Except.ok q ∧ q.heap.Perm items ∧
        q.key = none ∧ q.heap_type = ht) := by
  constructor
  · intro hex
    obtain ⟨i, hi, hsi⟩ := hex
    have hne : items.isEmpty = false := by
      cases items with
      | nil => simp at hi
      | cons a t => rfl
    have hany : items.any (fun i => ! (is_sortable i)) = true :=
      List.any_eq_true.mpr ⟨i, hi, by simp [is_sortable, hsi]⟩
    unfold initP
    rw [if_pos (by rw [hne, hany]; rfl)]
  · intro hall
    obtain ⟨h2, heq, hperm, _⟩ := initPushes_sortable_ok ht items [] (by simp) hall
    have hany_false : items.any (fun i => ! (is_sortable i)) = false := by
      rw [Bool.eq_false_iff]
      intro hcontra
      obtain ⟨x, hx, hb⟩ := List.any_eq_true.mp hcontra
      simp [is_sortable, hall x hx] at hb
    refine ⟨{ key := none, heap_type := ht, heap := h2 }, ?_, by simpa using hperm,
      rfl, rfl⟩
    unfold initP
    rw [if_neg (by rw [hany_false]; simp), heq]

/-- Witness for C7: constructing from `[(1, sortable), (2, unsortable)]`
fails with the unorderability error, while constructing from two sortable
items succeeds with both inserted. -/
theorem C7_witness :
    initP [{ val := 1, sortable := true }, { val := 2, sortable := false }]
        HeapType.MIN_HEAP none = Except.error Err.unorderable ∧
    (∃ q, initP [{ val := 1, sortable := true }, { val := 3, sortable := true }]
        HeapType.MIN_HEAP none = Except.ok q ∧
      q.heap.Perm [{ val := 1, sortable := true }, { val := 3, sortable := true }] ∧
      q.key = none ∧ q.heap_type = HeapType.MIN_HEAP) :=
  ⟨(C7_init_all_or_nothing _ _).1 ⟨{ val := 2, sortable := false }, by decide, rfl⟩,
   (C7_init_all_or_nothing _ _).2 (by decide)⟩

/-- C8: on an unkeyed queue, `push_all` inserts the items one at a time in
iteration order; at the first item failing the orderability probe the
unorderability error is raised immediately, and every earlier item of the
batch remains inserted (partial effect, no rollback). -/
theorem C8_push_all_first_failure (rest : List PElem) (bad : PElem)
    (hbad : bad.sortable = false) :
    ∀ (pre : List PElem) (q : PQueue), q.key = none →
      (∀ e ∈ q.heap, e.sortable = true) → (∀ i ∈ pre, i.sortable = true) →
      ∃ q2, push_all q (pre ++ bad :: rest) = (q2, some Err.unorderable) ∧
        q2.heap.Perm (pre ++ q.heap) ∧ q2.key = none ∧
        q2.heap_type = q.heap_type := by
  intro pre
  induction pre with
  | nil =>
    intro q hkey hheap _
    have hguard : (q.key.isNone && ! (is_sortable bad)) = true := by
      simp [hkey, is_sortable, hbad]
    refine ⟨q, ?_, by simp, hkey, rfl⟩
    simp only [List.nil_append, push_all, pushP, if_pos hguard]
  | cons i pre' ih =>
    intro q hkey hheap hpre
    have hi : i.sortable = true := hpre i (List.mem_cons_self i pre')
    obtain ⟨h2, hpush, hperm2, hsort2⟩ := pushP_sortable_ok hkey hheap hi
    obtain ⟨q2, heq, hperm, hk2, hht2⟩ := ih { q with heap := h2 } hkey hsort2
      (fun j hj => hpre j (List.mem_cons_of_mem i hj))
    refine ⟨q2, ?_, ?_, hk2, hht2⟩
    · show push_all q ((i :: pre') ++ bad :: rest) = (q2, some Err.unorderable)
      rw [List.cons_append]
      show (match pushP q i with
        | (q2, none) => push_all q2 (pre' ++ bad :: rest)
        | (q2, some e) => (q2, some e)) = (q2, some Err.unorderable)
      rw [hpush]
      exact heq
    · have h3 : (pre' ++ h2).Perm (pre' ++ (i :: q.heap)) :=
        List.Perm.append_left pre' hperm2
      have h4 : (pre' ++ (i :: q.heap)).Perm ((i :: pre') ++ q.heap) := by
        show (pre' ++ (i :: q.heap)).Perm (i :: (pre' ++ q.heap))
        exact List.perm_middle
      exact (hperm.trans h3).trans h4

/-- Witness for C8: pushing `[sortable(1), unsortable(0)]` onto an empty
unkeyed queue fails at the second item while the first stays inserted. -/
theorem C8_witness :
    ∃ q2, push_all { key := none, heap_type := HeapType.MIN_HEAP, heap := [] }
        ([{ val := 1, sortable := true }] ++ { val := 0, sortable := false } :: []) =
        (q2, some Err.unorderable) ∧
      q2.heap.Perm ([{ val := 1, sortable := true }] ++
        ({ key := none, heap_type := HeapType.MIN_HEAP, heap := [] } : PQueue).heap) ∧
      q2.key = none ∧
      q2.heap_type =
        ({ key := none, heap_type := HeapType.MIN_HEAP, heap := [] } : PQueue).heap_type :=
  C8_push_all_first_failure [] { val := 0, sortable := false } rfl
    [{ val := 1, sortable := true }]
    { key := none, heap_type := HeapType.MIN_HEAP, heap := [] } rfl
    (by simp) (by decide)

/-- C10: with a key function configured, each stored entry is the pair
`(polarity-adjusted key, element)` and the heap compares entries as Python
tuples, so a tie on the adjusted keys makes the elements themselves be
compared; when the tied elements do not support mutual comparison, `push`,
`push_all` and construction raise `TypeError` (the comparison
`TypeError`, not the guard's) even though a projection is configured. -/
theorem C10_tie_comparison :
    (∀ (β : Type) (ht : HeapType) (key : β → Int) (v : β),
      (prepare_value ht key v).key = adjKey ht key v ∧
      (prepare_value ht key v).elem = v) ∧
    (∀ (k : PElem → Int) (ht : HeapType) (a b : PElem),
      adjKey ht k a = adjKey ht k b → pEqB a b = false →
        entryLtP (some k) ht a b = pLtB a b) ∧
    (∀ (k : PElem → Int) (ht : HeapType) (a b : PElem),
      adjKey ht k a = adjKey ht k b → pEqB a b = false → pLtB a b = none →
        (pushP { key := some k, heap_type := ht, heap := [b] } a).2 =
          some Err.cmpTypeError ∧
        (push_all { key := some k, heap_type := ht, heap := [b] } [a]).2 =
          some Err.cmpTypeError ∧
        initP [b, a] ht (some k) = Except.error Err.cmpTypeError) := by
  refine ⟨?_, ?_, ?_⟩
  · intro β ht key v
    rw [prepare_value_eq]
    exact ⟨rfl, rfl⟩
  · intro k ht a b htie hne
    simp [entryLtP, htie, hne]
  · intro k ht a b htie hne hnone
    have hlt : entryLtP (some k) ht a b = none := by
      simp [entryLtP, htie, hne, hnone]
    have hpushE : heappushE (entryLtP (some k) ht) [b] a =
        ([b, a], some Err.cmpTypeError) := by
      show siftdownLoopE (entryLtP (some k) ht) a 1 ([b] ++ [a]) 0 1 =
        ([b, a], some Err.cmpTypeError)
      simp only [siftdownLoopE, parentIdx, List.cons_append, List.nil_append]
      rw [if_pos (by omega : (0 : Nat) < 1)]
      have hgetD : ([b, a] : List PElem).getD ((1 - 1) / 2) a = b := rfl
      rw [hgetD, hlt]
    have hpush : (pushP { key := some k, heap_type := ht, heap := [b] } a).2 =
        some Err.cmpTypeError := by
      unfold pushP
      rw [if_neg (by simp [is_sortable])]
      simp only [hpushE]
    refine ⟨hpush, ?_, ?_⟩
    · show (match pushP { key := some k, heap_type := ht, heap := [b] } a with
        | (q2, none) => push_all q2 []
        | (q2, some e) => (q2, some e)).2 = some Err.cmpTypeError
      have hfull : pushP { key := some k, heap_type := ht, heap := [b] } a =
          ({ key := some k, heap_type := ht, heap := [b, a] },
            some Err.cmpTypeError) := by
        unfold pushP
        rw [if_neg (by simp [is_sortable])]
        simp only [hpushE]
      rw [hfull]
    · have hfirst : heappushE (entryLtP (some k) ht) [] b = ([b], none) := rfl
      have hpushes : initPushes (entryLtP (some k) ht) [] [b, a] =
          ([b, a], some Err.cmpTypeError) := by
        show (match heappushE (entryLtP (some k) ht) [] b with
          | (h2, none) => initPushes (entryLtP (some k) ht) h2 [a]
          | (h2, some e) => (h2, some e)) = ([b, a], some Err.cmpTypeError)
        rw [hfirst]
        show (match heappushE (entryLtP (some k) ht) [b] a with
          | (h2, none) => initPushes (entryLtP (some k) ht) h2 []
          | (h2, some e) => (h2, some e)) = ([b, a], some Err.cmpTypeError)
        rw [hpushE]
      unfold initP
      rw [if_neg (by simp), hpushes]

/-- Witness for C10 with the constant projection `0` and two distinct
non-comparable elements. -/
theorem C10_witness :
    (pushP ⟨some (fun _ => 0), HeapType.MIN_HEAP, [⟨2, false⟩]⟩ ⟨1, false⟩).2 =
      some Err.cmpTypeError ∧
    (push_all ⟨some (fun _ => 0), HeapType.MIN_HEAP, [⟨2, false⟩]⟩ [⟨1, false⟩]).2 =
      some Err.cmpTypeError ∧
    initP [⟨2, false⟩, ⟨1, false⟩] HeapType.MIN_HEAP (some (fun _ => 0)) =
      Except.error Err.cmpTypeError :=
  C10_tie_comparison.2.2 (fun _ => 0) HeapType.MIN_HEAP ⟨1, false⟩ ⟨2, false⟩
    rfl rfl rfl
